import Mathlib

/-!
Verification of the psync chunk locator core.

This file gives a shallow embedding, translated from the Rust sources
(`src/rollsum.rs`, `src/chunkers.rs`, `src/controlfile.rs`, `src/search.rs`),
and proves or refutes the frozen specification claims about it.

Modelling conventions:
* bytes are `Nat` values, with `< 256` hypotheses where a claim needs them;
* `u64`/`usize` arithmetic is `Nat` arithmetic with explicit wrapping
  modulo `2 ^ 64` exactly where the Rust code wraps;
* a fallible slice access or an arithmetic underflow that panics in Rust is
  an `Option`/dedicated `panic` constructor in the model;
* SHA-256 is an opaque digest function, passed as an explicit parameter
  (the code only constructs digests and compares them for equality);
* the xorf binary fuse filter is an external crate and is modelled as an
  abstract predicate on 64-bit keys; "no false negatives" is a hypothesis.
-/

namespace Psync

/-- `WINDOW_SIZE` from src/rollsum.rs. -/
def WINDOW_SIZE : Nat := 4 * 1024

/-- `CHAR_OFFSET` from src/rollsum.rs. -/
def CHAR_OFFSET : Nat := 63

/-- The modulus of wrapping 64-bit unsigned arithmetic. -/
def U64 : Nat := 2 ^ 64

theorem U64_eq : U64 = 18446744073709551616 := by norm_num [U64]

theorem WINDOW_SIZE_eq : WINDOW_SIZE = 4096 := by norm_num [WINDOW_SIZE]

/-- Rust `u64::wrapping_add`. -/
def wadd (a b : Nat) : Nat := (a + b) % U64

/-- Rust `u64::wrapping_sub`. -/
def wsub (a b : Nat) : Nat := (a + (U64 - b % U64)) % U64

theorem wadd_small (a b : Nat) (h : a + b < U64) : wadd a b = a + b := by
  simp [wadd, Nat.mod_eq_of_lt h]

theorem wsub_small (a b : Nat) (hb : b ≤ a) (ha : a < U64) : wsub a b = a - b := by
  have hb' : b < U64 := lt_of_le_of_lt hb ha
  simp only [wsub, Nat.mod_eq_of_lt hb']
  rw [U64_eq] at *
  omega

/-- The rolling-checksum state of src/rollsum.rs: two 64-bit accumulators, a
ring buffer of `WINDOW_SIZE` bytes and the insertion offset. -/
structure RollSum where
  s1 : Nat
  s2 : Nat
  offset : Nat
  window : List Nat

/-- `impl Default for RollSum` (src/rollsum.rs lines 12-21). -/
def RollSum.default : RollSum :=
  { s1 := WINDOW_SIZE * CHAR_OFFSET
    s2 := WINDOW_SIZE * (WINDOW_SIZE - 1) * CHAR_OFFSET
    offset := 0
    window := List.replicate WINDOW_SIZE 0 }

/-- `RollSum::input` (src/rollsum.rs lines 25-40).  The `s2` update uses the
already-updated `s1`, as in the source; all arithmetic wraps mod `2 ^ 64`. -/
def RollSum.input (st : RollSum) (inVal : Nat) : RollSum :=
  let outVal := st.window.getD st.offset 0
  let s1 := wsub (wadd st.s1 inVal) outVal
  let s2 := wsub (wadd st.s2 s1) (WINDOW_SIZE * (outVal + CHAR_OFFSET))
  let offset1 := st.offset + 1
  { s1 := s1
    s2 := s2
    offset := if WINDOW_SIZE ≤ offset1 then 0 else offset1
    window := st.window.set st.offset inVal }

/-- `RollSum::sum` (src/rollsum.rs lines 43-45): `(s1 << 32) | (s2 & 0xffffffff)`
on `u64`. -/
def RollSum.sum (st : RollSum) : Nat :=
  ((st.s1 <<< 32) % U64) ||| (st.s2 &&& 0xffffffff)

/-- Feeding a byte sequence into a `RollSum`, one byte at a time. -/
def rollFeed (st : RollSum) (xs : List Nat) : RollSum := xs.foldl RollSum.input st

@[simp] theorem rollFeed_nil (st : RollSum) : rollFeed st [] = st := rfl

theorem rollFeed_append (st : RollSum) (l₁ l₂ : List Nat) :
    rollFeed st (l₁ ++ l₂) = rollFeed (rollFeed st l₁) l₂ := by
  simp [rollFeed]

theorem rollFeed_concat (st : RollSum) (l : List Nat) (b : Nat) :
    rollFeed st (l ++ [b]) = RollSum.input (rollFeed st l) b := by
  simp [rollFeed]

/-- The weighted sum `Σ (len − i) · l[i]`: the closed form of the `s2`
component of the rolling checksum over a window `l`. -/
def wsum : List Nat → Nat
  | [] => 0
  | a :: t => (t.length + 1) * a + wsum t

@[simp] theorem wsum_nil : wsum [] = 0 := rfl

@[simp] theorem wsum_cons (a : Nat) (t : List Nat) :
    wsum (a :: t) = (t.length + 1) * a + wsum t := rfl

theorem wsum_append_singleton (l : List Nat) (b : Nat) :
    wsum (l ++ [b]) = wsum l + l.sum + b := by
  induction l with
  | nil => simp
  | cons a t ih => simp [ih]; ring

@[simp] theorem wsum_replicate_zero (n : Nat) : wsum (List.replicate n 0) = 0 := by
  induction n with
  | zero => rfl
  | succ k ih => simp [List.replicate_succ, ih]

@[simp] theorem sum_replicate_zero (n : Nat) : (List.replicate n (0 : Nat)).sum = 0 := by
  induction n with
  | zero => rfl
  | succ k ih => rw [List.replicate_succ, List.sum_cons, ih]

theorem sum_le_of_bytes (l : List Nat) (h : ∀ y ∈ l, y < 256) :
    l.sum ≤ 255 * l.length := by
  induction l with
  | nil => simp
  | cons a t ih =>
    have ha : a < 256 := h a (by simp)
    have ht := ih (fun y hy => h y (by simp [hy]))
    simp only [List.sum_cons, List.length_cons]
    omega

theorem wsum_le_of_bytes (l : List Nat) (h : ∀ y ∈ l, y < 256) :
    wsum l ≤ 255 * (l.length * l.length) := by
  induction l with
  | nil => simp
  | cons a t ih =>
    have ha : a < 256 := h a (by simp)
    have ht := ih (fun y hy => h y (by simp [hy]))
    simp only [wsum_cons, List.length_cons]
    have hmul : (t.length + 1) * a ≤ (t.length + 1) * 255 := by
      exact Nat.mul_le_mul_left _ (by omega)
    nlinarith

/-- The last `WINDOW_SIZE` bytes fed so far, zero-padded at the front. -/
def zpad (xs : List Nat) : List Nat :=
  (List.replicate WINDOW_SIZE 0 ++ xs).drop xs.length

@[simp] theorem zpad_length (xs : List Nat) : (zpad xs).length = WINDOW_SIZE := by
  simp [zpad]

theorem zpad_nil : zpad [] = List.replicate WINDOW_SIZE 0 := by
  simp [zpad]

theorem mem_zpad_lt (xs : List Nat) (hb : ∀ y ∈ xs, y < 256) :
    ∀ y ∈ zpad xs, y < 256 := by
  intro y hy
  have := List.mem_of_mem_drop hy
  rcases List.mem_append.mp this with h | h
  · rcases List.eq_of_mem_replicate h with rfl; omega
  · exact hb y h

theorem zpad_append_singleton (l : List Nat) (b : Nat) :
    zpad (l ++ [b]) = (zpad l).drop 1 ++ [b] := by
  unfold zpad
  rw [List.length_append, List.length_singleton, ← List.append_assoc,
    List.drop_append_eq_append_drop]
  have h1 : (List.replicate WINDOW_SIZE 0 ++ l).drop (l.length + 1)
      = ((List.replicate WINDOW_SIZE 0 ++ l).drop l.length).drop 1 := by
    rw [List.drop_drop]
  have h2 : l.length + 1 - (List.replicate WINDOW_SIZE (0 : Nat) ++ l).length = 0 := by
    rw [List.length_append, List.length_replicate]
    have := WINDOW_SIZE_eq
    omega
  rw [h1, h2]
  simp

theorem zpad_of_length_ge (xs : List Nat) (h : WINDOW_SIZE ≤ xs.length) :
    zpad xs = xs.drop (xs.length - WINDOW_SIZE) := by
  unfold zpad
  rw [List.drop_append_eq_append_drop]
  have h1 : (List.replicate WINDOW_SIZE (0 : Nat)).drop xs.length = [] := by
    apply List.drop_eq_nil_of_le; simp; omega
  rw [h1]
  simp

theorem zpad_of_length_eq (xs : List Nat) (h : xs.length = WINDOW_SIZE) :
    zpad xs = xs := by
  rw [zpad_of_length_ge xs (by omega)]
  simp [h]

/-- The closed form of the rolling-checksum state after some bytes have been
fed from the default state: `ys` is the zero-padded window (`zpad` of the fed
bytes) and `n` the number of bytes fed so far. -/
def mkState (ys : List Nat) (n : Nat) : RollSum :=
  { s1 := WINDOW_SIZE * CHAR_OFFSET + ys.sum
    s2 := WINDOW_SIZE * (WINDOW_SIZE - 1) * CHAR_OFFSET + wsum ys
    offset := n % WINDOW_SIZE
    window := ys.drop (WINDOW_SIZE - n % WINDOW_SIZE)
      ++ ys.take (WINDOW_SIZE - n % WINDOW_SIZE) }

theorem mkState_sum (ys : List Nat) (n : Nat) :
    (mkState ys n).sum =
      (((WINDOW_SIZE * CHAR_OFFSET + ys.sum) <<< 32) % U64)
        ||| ((WINDOW_SIZE * (WINDOW_SIZE - 1) * CHAR_OFFSET + wsum ys) &&& 0xffffffff) := rfl

theorem input_mkState (ys : List Nat) (n b : Nat)
    (hlen : ys.length = WINDOW_SIZE)
    (hys : ∀ y ∈ ys, y < 256) (hb : b < 256) :
    (mkState ys n).input b = mkState (ys.drop 1 ++ [b]) (n + 1) := by
  obtain ⟨y0, tail, rfl⟩ : ∃ y0 tail, ys = y0 :: tail := by
    cases ys with
    | nil => simp [WINDOW_SIZE] at hlen
    | cons a t => exact ⟨a, t, rfl⟩
  have hW : WINDOW_SIZE = 4096 := WINDOW_SIZE_eq
  have hC : CHAR_OFFSET = 63 := rfl
  have hU : U64 = 18446744073709551616 := U64_eq
  have htl : tail.length = 4095 := by
    simp only [List.length_cons] at hlen; omega
  have hoff : n % WINDOW_SIZE < WINDOW_SIZE := Nat.mod_lt _ (by omega)
  -- the byte leaving the window is the head of `ys`
  have hdroplen : ((y0 :: tail).drop (WINDOW_SIZE - n % WINDOW_SIZE)).length
      = n % WINDOW_SIZE := by
    rw [List.length_drop]
    simp only [List.length_cons]
    omega
  have hout : ((y0 :: tail).drop (WINDOW_SIZE - n % WINDOW_SIZE)
      ++ (y0 :: tail).take (WINDOW_SIZE - n % WINDOW_SIZE)).getD (n % WINDOW_SIZE) 0
      = y0 := by
    rw [List.getD_eq_getElem?_getD, List.getElem?_append_right (by omega), hdroplen,
      Nat.sub_self]
    have h1 : WINDOW_SIZE - n % WINDOW_SIZE = (WINDOW_SIZE - n % WINDOW_SIZE - 1) + 1 := by
      omega
    rw [h1, List.take_succ_cons]
    simp
  -- byte bounds
  have hy0 : y0 < 256 := hys y0 (by simp)
  have htailb : ∀ y ∈ tail, y < 256 := fun y hy => hys y (by simp [hy])
  have hsumt : tail.sum ≤ 255 * 4095 := by
    have := sum_le_of_bytes tail htailb; omega
  have hwsumt : wsum tail ≤ 255 * (4095 * 4095) := by
    have := wsum_le_of_bytes tail htailb
    rw [htl] at this; omega
  -- the updated s1
  have e1 : wadd (WINDOW_SIZE * CHAR_OFFSET + (y0 :: tail).sum) b
      = WINDOW_SIZE * CHAR_OFFSET + (y0 :: tail).sum + b := by
    apply wadd_small
    simp only [List.sum_cons, hW, hC, hU]
    omega
  have e2 : wsub (WINDOW_SIZE * CHAR_OFFSET + (y0 :: tail).sum + b) y0
      = WINDOW_SIZE * CHAR_OFFSET + (tail.sum + b) := by
    rw [wsub_small _ _ (by simp only [List.sum_cons]; omega)
      (by simp only [List.sum_cons, hW, hC, hU]; omega)]
    simp only [List.sum_cons]
    omega
  have hs1 : wsub (wadd (WINDOW_SIZE * CHAR_OFFSET + (y0 :: tail).sum) b) y0
      = WINDOW_SIZE * CHAR_OFFSET + (tail.sum + b) := by rw [e1, e2]
  -- the updated s2
  have hws : wsum (y0 :: tail) = 4096 * y0 + wsum tail := by
    rw [wsum_cons, htl]
  have e3 : wadd (WINDOW_SIZE * (WINDOW_SIZE - 1) * CHAR_OFFSET + wsum (y0 :: tail))
        (WINDOW_SIZE * CHAR_OFFSET + (tail.sum + b))
      = WINDOW_SIZE * (WINDOW_SIZE - 1) * CHAR_OFFSET + wsum (y0 :: tail)
        + (WINDOW_SIZE * CHAR_OFFSET + (tail.sum + b)) := by
    apply wadd_small
    rw [hws]
    simp only [hW, hC, hU]
    omega
  have e4 : wsub
      (WINDOW_SIZE * (WINDOW_SIZE - 1) * CHAR_OFFSET + wsum (y0 :: tail)
        + (WINDOW_SIZE * CHAR_OFFSET + (tail.sum + b)))
      (WINDOW_SIZE * (y0 + CHAR_OFFSET))
      = WINDOW_SIZE * (WINDOW_SIZE - 1) * CHAR_OFFSET + wsum (tail ++ [b]) := by
    rw [wsub_small _ _ ?hle ?hlt]
    case hle =>
      rw [hws]
      simp only [hW, hC]
      omega
    case hlt =>
      rw [hws]
      simp only [hW, hC, hU]
      omega
    rw [hws, wsum_append_singleton]
    simp only [hW, hC]
    omega
  have hs2 : wsub
      (wadd (WINDOW_SIZE * (WINDOW_SIZE - 1) * CHAR_OFFSET + wsum (y0 :: tail))
        (WINDOW_SIZE * CHAR_OFFSET + (tail.sum + b)))
      (WINDOW_SIZE * (y0 + CHAR_OFFSET))
      = WINDOW_SIZE * (WINDOW_SIZE - 1) * CHAR_OFFSET + wsum (tail ++ [b]) := by
    rw [e3, e4]
  -- now prove the structure equality componentwise
  unfold mkState RollSum.input
  simp only [RollSum.mk.injEq, hout, hs1, hs2]
  refine ⟨by simp, by simp, ?_, ?_⟩
  · rw [hW]; split <;> omega
  · -- the ring buffer
    simp only [List.drop_succ_cons, List.drop_zero]
    rw [List.set_append_right _ _ (by omega), hdroplen, Nat.sub_self]
    by_cases hc : n % WINDOW_SIZE = WINDOW_SIZE - 1
    · have hn1 : (n + 1) % WINDOW_SIZE = 0 := by
        rw [hW]; rw [hW] at hc; omega
      have h1 : WINDOW_SIZE - (WINDOW_SIZE - 1) = 1 := by omega
      rw [hn1, hc, h1]
      simp only [Nat.sub_zero, List.drop_succ_cons, List.drop_zero, List.take_succ_cons,
        List.take_zero, List.set_cons_zero]
      have hlen' : (tail ++ [b]).length = WINDOW_SIZE := by
        simp only [List.length_append, List.length_singleton, htl]; omega
      rw [List.drop_eq_nil_of_le (by omega), List.take_of_length_le (by omega)]
      simp
    · have hn1 : (n + 1) % WINDOW_SIZE = n % WINDOW_SIZE + 1 := by
        rw [hW]; rw [hW] at hc; omega
      rw [hn1]
      have h1 : WINDOW_SIZE - n % WINDOW_SIZE
          = (WINDOW_SIZE - n % WINDOW_SIZE - 1) + 1 := by omega
      rw [h1, List.take_succ_cons, List.drop_succ_cons, List.set_cons_zero]
      have h2 : WINDOW_SIZE - (n % WINDOW_SIZE + 1)
          = WINDOW_SIZE - n % WINDOW_SIZE - 1 := by omega
      rw [h2]
      have h3 : (tail ++ [b]).drop (WINDOW_SIZE - n % WINDOW_SIZE - 1)
          = tail.drop (WINDOW_SIZE - n % WINDOW_SIZE - 1) ++ [b] := by
        rw [List.drop_append_eq_append_drop]
        have h5 : WINDOW_SIZE - n % WINDOW_SIZE - 1 - tail.length = 0 := by omega
        rw [h5]
        simp
      have h4 : (tail ++ [b]).take (WINDOW_SIZE - n % WINDOW_SIZE - 1)
          = tail.take (WINDOW_SIZE - n % WINDOW_SIZE - 1) := by
        apply List.take_append_of_le_length
        omega
      rw [h3, h4]
      simp

/-- Master invariant: feeding any byte sequence from the default state lands in
the closed-form state determined by the zero-padded last `WINDOW_SIZE` bytes. -/
theorem rollFeed_spec (xs : List Nat) (hb : ∀ y ∈ xs, y < 256) :
    rollFeed RollSum.default xs = mkState (zpad xs) xs.length := by
  induction xs using List.reverseRecOn with
  | nil =>
    rw [rollFeed_nil, zpad_nil]
    unfold RollSum.default mkState
    simp
  | append_singleton l a ih =>
    have hb' : ∀ y ∈ l, y < 256 := fun y hy => hb y (by simp [hy])
    have ha : a < 256 := hb a (by simp)
    rw [rollFeed_concat, ih hb']
    rw [input_mkState (zpad l) l.length a (zpad_length l) (mem_zpad_lt l hb') ha]
    rw [← zpad_append_singleton]
    simp

theorem rollFeed_sum_eq (xs : List Nat) (hb : ∀ y ∈ xs, y < 256) :
    (rollFeed RollSum.default xs).sum
      = (((WINDOW_SIZE * CHAR_OFFSET + (zpad xs).sum) <<< 32) % U64)
        ||| ((WINDOW_SIZE * (WINDOW_SIZE - 1) * CHAR_OFFSET + wsum (zpad xs)) &&& 0xffffffff) := by
  rw [rollFeed_spec xs hb, mkState_sum]

/-- Claim C3: rolling-hash sliding-window equivalence.  For every byte sequence
`seed` and index `i ≥ WINDOW_SIZE − 1`, feeding `seed[0..=i]` into a default
`RollSum` yields the same checksum as feeding only the window
`seed[i+1−WINDOW_SIZE..=i]` into a fresh default instance; moreover, feeding
exactly `WINDOW_SIZE` bytes from the initial state lands in the genuine-window
state over those bytes (`mkState ys WINDOW_SIZE`, whose accumulators are the
closed forms over `ys` alone and whose ring buffer is exactly `ys`): the
pre-loaded initial state cancels the phantom zero bytes. -/
theorem c3_rollsum_window_equiv (seed : List Nat) (hb : ∀ y ∈ seed, y < 256)
    (i : Nat) (h1 : WINDOW_SIZE - 1 ≤ i) (h2 : i < seed.length) :
    (rollFeed RollSum.default (seed.take (i + 1))).sum
      = (rollFeed RollSum.default ((seed.take (i + 1)).drop (i + 1 - WINDOW_SIZE))).sum
    ∧ ∀ ys : List Nat, ys.length = WINDOW_SIZE → (∀ y ∈ ys, y < 256) →
        rollFeed RollSum.default ys = mkState ys WINDOW_SIZE := by
  have hW : WINDOW_SIZE = 4096 := WINDOW_SIZE_eq
  constructor
  · have hbt : ∀ y ∈ seed.take (i + 1), y < 256 :=
      fun y hy => hb y (List.mem_of_mem_take hy)
    have hlt : (seed.take (i + 1)).length = i + 1 := by
      rw [List.length_take]; omega
    have hbs : ∀ y ∈ (seed.take (i + 1)).drop (i + 1 - WINDOW_SIZE), y < 256 :=
      fun y hy => hbt y (List.mem_of_mem_drop hy)
    have hsl : ((seed.take (i + 1)).drop (i + 1 - WINDOW_SIZE)).length = WINDOW_SIZE := by
      rw [List.length_drop, hlt]; omega
    have hzp1 : zpad (seed.take (i + 1)) = (seed.take (i + 1)).drop (i + 1 - WINDOW_SIZE) := by
      rw [zpad_of_length_ge _ (by omega), hlt]
    have hzp2 : zpad ((seed.take (i + 1)).drop (i + 1 - WINDOW_SIZE))
        = (seed.take (i + 1)).drop (i + 1 - WINDOW_SIZE) := zpad_of_length_eq _ hsl
    rw [rollFeed_spec _ hbt, rollFeed_spec _ hbs, mkState_sum, mkState_sum, hzp1, hzp2]
  · intro ys hys hbys
    rw [rollFeed_spec ys hbys, zpad_of_length_eq ys hys, hys]

/-- Witness for C3 at the concrete seed `replicate WINDOW_SIZE 0`, `i = 4095`. -/
theorem c3_rollsum_window_equiv_witness :
    (rollFeed RollSum.default ((List.replicate WINDOW_SIZE 0).take (4095 + 1))).sum
      = (rollFeed RollSum.default
          (((List.replicate WINDOW_SIZE 0).take (4095 + 1)).drop (4095 + 1 - WINDOW_SIZE))).sum
    ∧ ∀ ys : List Nat, ys.length = WINDOW_SIZE → (∀ y ∈ ys, y < 256) →
        rollFeed RollSum.default ys = mkState ys WINDOW_SIZE :=
  c3_rollsum_window_equiv (List.replicate WINDOW_SIZE 0)
    (fun y hy => by rcases List.eq_of_mem_replicate hy with rfl; omega)
    4095 (by rw [WINDOW_SIZE_eq]) (by rw [List.length_replicate, WINDOW_SIZE_eq]; omega)

/-! ## Chunk materialisation (src/chunkers.rs, src/controlfile.rs) -/

/-- `type Sha256Sum = [u8; 32]` — digests are opaque byte vectors in the model;
the actual SHA-256 compression function is passed as a parameter `sha`
everywhere, since the code only produces digests and compares them. -/
abbrev Sha256Sum := List Nat

/-- A chunk descriptor / control-file line (`Appearance` in the source).  The
Rust field `from` is called `afrom` here because `from` is a Lean keyword. -/
structure Appearance where
  afrom : Nat
  len : Nat
  start_mark : Nat
  hash : Sha256Sum
deriving DecidableEq

/-- Rust slice indexing `&file[a..b]`: panics (`none`) unless `a ≤ b ≤ len`. -/
def sliceChecked (file : List Nat) (a b : Nat) : Option (List Nat) :=
  if a ≤ b ∧ b ≤ file.length then some ((file.drop a).take (b - a)) else none

theorem sliceChecked_some (file : List Nat) (a b : Nat) (h1 : a ≤ b)
    (h2 : b ≤ file.length) :
    sliceChecked file a b = some ((file.drop a).take (b - a)) := by
  unfold sliceChecked
  rw [if_pos ⟨h1, h2⟩]

/-- The three sequential clamping steps of `chunk_specific`
(src/chunkers.rs lines 76-92): EOF-shift, then EOF-truncate, then
min-length expansion, in that order. -/
def clamp (fileLen f0 l0 : Nat) : Nat × Nat :=
  let p1 := if f0 + WINDOW_SIZE ≥ fileLen then (fileLen - WINDOW_SIZE, WINDOW_SIZE)
    else (f0, l0)
  let l2 := if p1.1 + p1.2 > fileLen then fileLen - p1.1 else p1.2
  let l3 := if l2 < WINDOW_SIZE then WINDOW_SIZE else l2
  (p1.1, l3)

/-- `chunk_specific` (src/chunkers.rs lines 75-108), identical to
`Appearance::new` (src/controlfile.rs lines 129-163).  When the file is
shorter than `WINDOW_SIZE` the EOF-shift branch is necessarily taken and
`file.len() - WINDOW_SIZE` underflows on `usize`: the Rust code panics,
modelled as `none`.  The two slice reads are checked accesses. -/
def chunkSpecific (sha : List Nat → Sha256Sum) (file : List Nat)
    (from0 len0 : Nat) : Option Appearance :=
  if from0 + WINDOW_SIZE ≥ file.length ∧ file.length < WINDOW_SIZE then
    none
  else
    let c := clamp file.length from0 len0
    (sliceChecked file c.1 (c.1 + WINDOW_SIZE)).bind fun win =>
    (sliceChecked file c.1 (c.1 + c.2)).map fun content =>
    { afrom := c.1
      len := c.2
      start_mark := (rollFeed RollSum.default win).sum
      hash := sha content }

theorem clamp_spec (L f0 l0 : Nat) (h : WINDOW_SIZE ≤ L) :
    (clamp L f0 l0).1 + (clamp L f0 l0).2 ≤ L
    ∧ WINDOW_SIZE ≤ (clamp L f0 l0).2
    ∧ (clamp L f0 l0).1 + WINDOW_SIZE ≤ L := by
  unfold clamp
  dsimp only
  split_ifs <;> simp_all <;> omega

theorem chunkSpecific_some (sha : List Nat → Sha256Sum) (file : List Nat)
    (f0 l0 : Nat) (h : WINDOW_SIZE ≤ file.length) :
    chunkSpecific sha file f0 l0 = some
      { afrom := (clamp file.length f0 l0).1
        len := (clamp file.length f0 l0).2
        start_mark := (rollFeed RollSum.default
          ((file.drop (clamp file.length f0 l0).1).take WINDOW_SIZE)).sum
        hash := sha ((file.drop (clamp file.length f0 l0).1).take
          (clamp file.length f0 l0).2) } := by
  obtain ⟨hc1, hc2, hc3⟩ := clamp_spec file.length f0 l0 h
  unfold chunkSpecific
  rw [if_neg (by omega)]
  dsimp only
  rw [sliceChecked_some file _ _ (by omega) (by omega),
    sliceChecked_some file _ _ (by omega) (by omega)]
  simp [Nat.add_sub_cancel_left]

/-- Claim C4: chunk materialisation clamps correctly.  For every file at least
`WINDOW_SIZE` long and every requested `(from, len)`, `chunk_specific` applies
EOF-shift, then EOF-truncate, then min-length expansion (the `clamp`
function, in that order), and the emitted chunk carries the clamped `from`
and `len`, satisfies `from + len ≤ file_len` and `len ≥ WINDOW_SIZE`, has
`hash = sha(file[from..from+len])` and `start_mark` equal to the rolling
checksum of `file[from..from+WINDOW_SIZE]`. -/
theorem c4_chunk_specific_clamps (sha : List Nat → Sha256Sum) (file : List Nat)
    (f0 l0 : Nat) (h : WINDOW_SIZE ≤ file.length) :
    chunkSpecific sha file f0 l0 = some
      { afrom := (clamp file.length f0 l0).1
        len := (clamp file.length f0 l0).2
        start_mark := (rollFeed RollSum.default
          ((file.drop (clamp file.length f0 l0).1).take WINDOW_SIZE)).sum
        hash := sha ((file.drop (clamp file.length f0 l0).1).take
          (clamp file.length f0 l0).2) }
    ∧ (clamp file.length f0 l0).1 + (clamp file.length f0 l0).2 ≤ file.length
    ∧ WINDOW_SIZE ≤ (clamp file.length f0 l0).2 :=
  ⟨chunkSpecific_some sha file f0 l0 h, (clamp_spec file.length f0 l0 h).1,
    (clamp_spec file.length f0 l0 h).2.1⟩

/-- Witness for C4 at `file = replicate WINDOW_SIZE 0`, `(from, len) = (0, WINDOW_SIZE)`. -/
theorem c4_chunk_specific_clamps_witness :
    chunkSpecific (fun l => l) (List.replicate WINDOW_SIZE 0) 0 WINDOW_SIZE = some
      { afrom := (clamp (List.replicate WINDOW_SIZE (0 : Nat)).length 0 WINDOW_SIZE).1
        len := (clamp (List.replicate WINDOW_SIZE (0 : Nat)).length 0 WINDOW_SIZE).2
        start_mark := (rollFeed RollSum.default
          (((List.replicate WINDOW_SIZE 0).drop
            (clamp (List.replicate WINDOW_SIZE (0 : Nat)).length 0 WINDOW_SIZE).1).take
            WINDOW_SIZE)).sum
        hash := ((List.replicate WINDOW_SIZE 0).drop
            (clamp (List.replicate WINDOW_SIZE (0 : Nat)).length 0 WINDOW_SIZE).1).take
            (clamp (List.replicate WINDOW_SIZE (0 : Nat)).length 0 WINDOW_SIZE).2 }
    ∧ (clamp (List.replicate WINDOW_SIZE (0 : Nat)).length 0 WINDOW_SIZE).1
        + (clamp (List.replicate WINDOW_SIZE (0 : Nat)).length 0 WINDOW_SIZE).2
        ≤ (List.replicate WINDOW_SIZE (0 : Nat)).length
    ∧ WINDOW_SIZE ≤ (clamp (List.replicate WINDOW_SIZE (0 : Nat)).length 0 WINDOW_SIZE).2 :=
  c4_chunk_specific_clamps (fun l => l) (List.replicate WINDOW_SIZE 0) 0 WINDOW_SIZE
    (by rw [List.length_replicate])

/-- Claim C10: implicit domain of chunk materialisation.  `chunk_specific`
(and the identical `Appearance::new`) panics on every call when the file is
shorter than `WINDOW_SIZE` — the EOF-shift condition `from + WINDOW_SIZE ≥
file_len` always holds there and `file_len - WINDOW_SIZE` underflows — while
for `file_len ≥ WINDOW_SIZE` and any request with `from + len ≤ file_len`
every slice access is in bounds and the call returns normally. -/
theorem c10_chunk_specific_domain (sha : List Nat → Sha256Sum) (file : List Nat)
    (f0 l0 : Nat) :
    (file.length < WINDOW_SIZE → chunkSpecific sha file f0 l0 = none)
    ∧ (WINDOW_SIZE ≤ file.length → f0 + l0 ≤ file.length →
        ∃ a, chunkSpecific sha file f0 l0 = some a) := by
  constructor
  · intro h
    unfold chunkSpecific
    rw [if_pos ⟨by omega, h⟩]
  · intro h _
    exact ⟨_, chunkSpecific_some sha file f0 l0 h⟩

/-- Witness for C10: a file shorter than the window panics, a long-enough file
returns normally. -/
theorem c10_chunk_specific_domain_witness :
    chunkSpecific (fun l => l) [0, 1, 2] 0 3 = none
    ∧ ∃ a, chunkSpecific (fun l => l) (List.replicate WINDOW_SIZE 0) 0 0 = some a :=
  ⟨(c10_chunk_specific_domain (fun l => l) [0, 1, 2] 0 3).1
      (by rw [WINDOW_SIZE_eq]; simp),
    (c10_chunk_specific_domain (fun l => l) (List.replicate WINDOW_SIZE 0) 0 0).2
      (by rw [List.length_replicate]) (by rw [List.length_replicate]; omega)⟩

/-! ## Uniform chunking (src/chunkers.rs lines 44-73) -/

/-- Result of `chunk_uniform`: the `ensure!` error, a panic while consuming
the iterator, or the list of emitted chunk descriptors. -/
inductive CURes where
  | err : CURes
  | cpanic : CURes
  | ok : List Appearance → CURes
deriving DecidableEq

/-- The body of the `chunk_uniform` iterator (src/chunkers.rs lines 56-72):
one step per input byte at position `i`, feeding the rolling hash and emitting
a descriptor whenever `(i+1).checked_sub(WINDOW_SIZE)` is `Some from` with
`from % size == 0`.  The emitted hash covers `file[from..min(len, from+size)]`
while the recorded `len` field is always `size`. -/
def cuAux (sha : List Nat → Sha256Sum) (file : List Nat) (size : Nat) :
    Nat → RollSum → List Nat → Option (List Appearance)
  | _, _, [] => some []
  | i, rs, b :: rest =>
    let rs' := rs.input b
    if WINDOW_SIZE ≤ i + 1 then
      if (i + 1 - WINDOW_SIZE) % size = 0 then
        (sliceChecked file (i + 1 - WINDOW_SIZE)
            (min file.length (i + 1 - WINDOW_SIZE + size))).bind fun content =>
          (cuAux sha file size (i + 1) rs' rest).map
            (fun l =>
              { afrom := i + 1 - WINDOW_SIZE
                len := size
                start_mark := rs'.sum
                hash := sha content } :: l)
      else cuAux sha file size (i + 1) rs' rest
    else cuAux sha file size (i + 1) rs' rest

theorem cuAux_nil (sha : List Nat → Sha256Sum) (file : List Nat) (size i : Nat)
    (rs : RollSum) : cuAux sha file size i rs [] = some [] := rfl

theorem cuAux_cons (sha : List Nat → Sha256Sum) (file : List Nat) (size i : Nat)
    (rs : RollSum) (b : Nat) (rest : List Nat) :
    cuAux sha file size i rs (b :: rest) =
      if WINDOW_SIZE ≤ i + 1 then
        if (i + 1 - WINDOW_SIZE) % size = 0 then
          (sliceChecked file (i + 1 - WINDOW_SIZE)
              (min file.length (i + 1 - WINDOW_SIZE + size))).bind fun content =>
            (cuAux sha file size (i + 1) (rs.input b) rest).map
              (fun l =>
                { afrom := i + 1 - WINDOW_SIZE
                  len := size
                  start_mark := (rs.input b).sum
                  hash := sha content } :: l)
        else cuAux sha file size (i + 1) (rs.input b) rest
      else cuAux sha file size (i + 1) (rs.input b) rest := rfl

/-- `chunk_uniform` (src/chunkers.rs lines 44-73).  `ensure!(size >=
WINDOW_SIZE)` is the `err` case.  The `info!` log line's arguments (including
`(file.len() - 1) / size`) are evaluated only when a tracing subscriber
enables the event; logging is an ambient collaborator declared out of scope by
the spec, so it is modelled as a no-op. -/
def chunkUniform (sha : List Nat → Sha256Sum) (file : List Nat) (size : Nat) : CURes :=
  if size < WINDOW_SIZE then .err
  else
    match cuAux sha file size 0 RollSum.default file with
    | none => .cpanic
    | some l => .ok l

theorem cuAux_some (sha : List Nat → Sha256Sum) (file : List Nat) (size : Nat)
    (rest : List Nat) :
    ∀ i rs, i + rest.length = file.length →
      ∃ l, cuAux sha file size i rs rest = some l := by
  induction rest with
  | nil => intro i rs _; exact ⟨[], rfl⟩
  | cons b rest ih =>
    intro i rs hinv
    simp only [List.length_cons] at hinv
    obtain ⟨l, hl⟩ := ih (i + 1) (rs.input b) (by omega)
    by_cases h1 : WINDOW_SIZE ≤ i + 1
    · by_cases h2 : (i + 1 - WINDOW_SIZE) % size = 0
      · refine ⟨{ afrom := i + 1 - WINDOW_SIZE
                  len := size
                  start_mark := (rs.input b).sum
                  hash := sha ((file.drop (i + 1 - WINDOW_SIZE)).take
                    (min file.length (i + 1 - WINDOW_SIZE + size)
                      - (i + 1 - WINDOW_SIZE))) } :: l, ?_⟩
        rw [cuAux_cons, if_pos h1, if_pos h2,
          sliceChecked_some file _ _ (by omega) (by omega), Option.some_bind, hl]
        rfl
      · exact ⟨l, by rw [cuAux_cons, if_pos h1, if_neg h2]; exact hl⟩
    · exact ⟨l, by rw [cuAux_cons, if_neg h1]; exact hl⟩

theorem chunkUniform_ok_of_le (sha : List Nat → Sha256Sum) (file : List Nat)
    (size : Nat) (hs : WINDOW_SIZE ≤ size) :
    ∃ l, chunkUniform sha file size = .ok l := by
  obtain ⟨l, hl⟩ := cuAux_some sha file size file 0 RollSum.default (by omega)
  exact ⟨l, by simp only [chunkUniform, if_neg (by omega : ¬ size < WINDOW_SIZE), hl]⟩

theorem chunkUniform_ok_elim (sha : List Nat → Sha256Sum) (file : List Nat)
    (size : Nat) (l : List Appearance) (hok : chunkUniform sha file size = .ok l) :
    WINDOW_SIZE ≤ size ∧ cuAux sha file size 0 RollSum.default file = some l := by
  unfold chunkUniform at hok
  by_cases hs : size < WINDOW_SIZE
  · rw [if_pos hs] at hok; exact absurd hok (by simp)
  · rw [if_neg hs] at hok
    refine ⟨by omega, ?_⟩
    cases h : cuAux sha file size 0 RollSum.default file with
    | none => rw [h] at hok; exact absurd hok (by simp)
    | some l' => rw [h] at hok; simp at hok; rw [hok]

/-- Every descriptor emitted by the iterator body records `len = size`, an
aligned `from` with the whole rolling window inside the file, and a hash over
`file[from..min(file_len, from+size)]`. -/
theorem cuAux_mem (sha : List Nat → Sha256Sum) (file : List Nat) (size : Nat)
    (rest : List Nat) :
    ∀ i rs l, i + rest.length = file.length →
      cuAux sha file size i rs rest = some l →
      ∀ a ∈ l, a.len = size ∧ a.afrom % size = 0
        ∧ a.afrom + WINDOW_SIZE ≤ file.length
        ∧ a.hash = sha ((file.drop a.afrom).take
            (min file.length (a.afrom + size) - a.afrom)) := by
  induction rest with
  | nil =>
    intro i rs l _ hres a ha
    rw [cuAux_nil] at hres
    injection hres with h
    rw [← h] at ha
    simp at ha
  | cons b rest ih =>
    intro i rs l hinv hres a ha
    simp only [List.length_cons] at hinv
    by_cases h1 : WINDOW_SIZE ≤ i + 1
    · by_cases h2 : (i + 1 - WINDOW_SIZE) % size = 0
      · rw [cuAux_cons, if_pos h1, if_pos h2,
          sliceChecked_some file _ _ (by omega) (by omega), Option.some_bind] at hres
        cases hrec : cuAux sha file size (i + 1) (rs.input b) rest with
        | none => rw [hrec] at hres; exact absurd hres (by simp)
        | some l' =>
          rw [hrec] at hres
          simp only [Option.map_some'] at hres
          injection hres with h
          rw [← h] at ha
          rcases List.mem_cons.mp ha with rfl | ha'
          · refine ⟨rfl, h2, by simp; omega, ?_⟩
            simp
          · exact ih (i + 1) (rs.input b) l' (by omega) hrec a ha'
      · rw [cuAux_cons, if_pos h1, if_neg h2] at hres
        exact ih (i + 1) (rs.input b) l (by omega) hres a ha
    · rw [cuAux_cons, if_neg h1] at hres
      exact ih (i + 1) (rs.input b) l (by omega) hres a ha

/-- Completeness of emission: whenever position `j` lies in the processed
suffix and `j + 1 - WINDOW_SIZE` is an aligned offset, a descriptor for it is
in the output. -/
theorem cuAux_emits (sha : List Nat → Sha256Sum) (file : List Nat) (size : Nat)
    (rest : List Nat) :
    ∀ i rs l, cuAux sha file size i rs rest = some l →
      ∀ j, i ≤ j → j < i + rest.length → WINDOW_SIZE ≤ j + 1 →
        (j + 1 - WINDOW_SIZE) % size = 0 →
        ∃ a ∈ l, a.afrom = j + 1 - WINDOW_SIZE ∧ a.len = size := by
  induction rest with
  | nil =>
    intro i rs l _ j _ hj _ _
    simp at hj; omega
  | cons b rest ih =>
    intro i rs l hres j hij hj hWj hmod
    simp only [List.length_cons] at hj
    by_cases hji : j = i
    · subst hji
      have h1 : WINDOW_SIZE ≤ j + 1 := hWj
      rw [cuAux_cons, if_pos h1, if_pos hmod] at hres
      cases hsl : sliceChecked file (j + 1 - WINDOW_SIZE)
          (min file.length (j + 1 - WINDOW_SIZE + size)) with
      | none => rw [hsl] at hres; exact absurd hres (by simp)
      | some content =>
        rw [hsl, Option.some_bind] at hres
        cases hrec : cuAux sha file size (j + 1) (rs.input b) rest with
        | none => rw [hrec] at hres; exact absurd hres (by simp)
        | some l' =>
          rw [hrec] at hres
          simp only [Option.map_some'] at hres
          injection hres with h
          subst h
          exact ⟨_, List.mem_cons_self _ _, rfl, rfl⟩
    · have hij' : i + 1 ≤ j := by omega
      by_cases h1 : WINDOW_SIZE ≤ i + 1
      · by_cases h2 : (i + 1 - WINDOW_SIZE) % size = 0
        · rw [cuAux_cons, if_pos h1, if_pos h2] at hres
          cases hsl : sliceChecked file (i + 1 - WINDOW_SIZE)
              (min file.length (i + 1 - WINDOW_SIZE + size)) with
          | none => rw [hsl] at hres; exact absurd hres (by simp)
          | some content =>
            rw [hsl, Option.some_bind] at hres
            cases hrec : cuAux sha file size (i + 1) (rs.input b) rest with
            | none => rw [hrec] at hres; exact absurd hres (by simp)
            | some l' =>
              rw [hrec] at hres
              simp only [Option.map_some'] at hres
              injection hres with h
              subst h
              obtain ⟨a, ha, h3, h4⟩ :=
                ih (i + 1) (rs.input b) l' hrec j hij' (by omega) hWj hmod
              exact ⟨a, List.mem_cons_of_mem _ ha, h3, h4⟩
        · rw [cuAux_cons, if_pos h1, if_neg h2] at hres
          exact ih (i + 1) (rs.input b) l hres j hij' (by omega) hWj hmod
      · rw [cuAux_cons, if_neg h1] at hres
        exact ih (i + 1) (rs.input b) l hres j hij' (by omega) hWj hmod

/-- Claim C8: `chunk_uniform` fails exactly when the requested size is below
`WINDOW_SIZE`; for any input slice (the empty slice included) with `size ≥
WINDOW_SIZE` it returns `Ok` and consuming the iterator never panics. -/
theorem c8_chunk_uniform_err (sha : List Nat → Sha256Sum) (file : List Nat)
    (size : Nat) :
    (chunkUniform sha file size = CURes.err ↔ size < WINDOW_SIZE)
    ∧ (WINDOW_SIZE ≤ size → ∃ l, chunkUniform sha file size = CURes.ok l) := by
  constructor
  · constructor
    · intro h
      by_cases hs : size < WINDOW_SIZE
      · exact hs
      · obtain ⟨l, hl⟩ := chunkUniform_ok_of_le sha file size (by omega)
        rw [hl] at h
        exact absurd h (by simp)
    · intro hs
      simp only [chunkUniform, if_pos hs]
  · exact fun hs => chunkUniform_ok_of_le sha file size hs

/-- Witness for C8: the empty slice with `size = WINDOW_SIZE` succeeds, and a
too-small size is rejected. -/
theorem c8_chunk_uniform_err_witness :
    chunkUniform (fun x => x) [] 0 = CURes.err
    ∧ ∃ l, chunkUniform (fun x => x) [] WINDOW_SIZE = CURes.ok l :=
  ⟨(c8_chunk_uniform_err (fun x => x) [] 0).1.mpr (by rw [WINDOW_SIZE_eq]; omega),
    (c8_chunk_uniform_err (fun x => x) [] WINDOW_SIZE).2 (le_refl _)⟩

/-- Claim C5 (amended): every descriptor emitted by `chunk_uniform` records
`len = size` and an aligned `from` with `from + WINDOW_SIZE ≤ file_len`, and
its hash covers `file[from..min(file_len, from+size)]`.  When `from + size ≤
file_len` (every chunk but possibly the final one) this gives `hash =
SHA256(file[from..from+len])` and `from + len ≤ file_len`; for a final chunk
with `from + size > file_len` the recorded `len` field (still `size`)
overstates the hashed range. -/
theorem c5_chunk_uniform_hash_amended (sha : List Nat → Sha256Sum)
    (file : List Nat) (size : Nat) (l : List Appearance)
    (hok : chunkUniform sha file size = CURes.ok l) :
    ∀ a ∈ l, a.len = size ∧ a.afrom % size = 0
      ∧ a.afrom + WINDOW_SIZE ≤ file.length
      ∧ a.hash = sha ((file.drop a.afrom).take
          (min file.length (a.afrom + size) - a.afrom))
      ∧ (a.afrom + size ≤ file.length →
          a.hash = sha ((file.drop a.afrom).take a.len)
            ∧ a.afrom + a.len ≤ file.length) := by
  obtain ⟨hs, hcu⟩ := chunkUniform_ok_elim sha file size l hok
  intro a ha
  obtain ⟨e1, e2, e3, e4⟩ := cuAux_mem sha file size file 0 RollSum.default l
    (by omega) hcu a ha
  refine ⟨e1, e2, e3, e4, fun hfit => ⟨?_, by omega⟩⟩
  rw [e4, e1]
  congr 1
  congr 1
  omega

/-- Counterexample to C5 as stated: with a 9096-byte file and `size = 5000`
the final emitted chunk has `from = 5000` and records `len = 5000`, so
`from + len = 10000 > 9096 = file_len` (and the hash covered only the 4096
available bytes, not `file[from..from+len]`). -/
theorem c5_chunk_uniform_hash_counterexample :
    ∃ l, chunkUniform (fun x => x) (List.replicate 9096 0) 5000 = CURes.ok l
      ∧ ∃ a ∈ l, (List.replicate 9096 (0 : Nat)).length < a.afrom + a.len := by
  have hW : WINDOW_SIZE = 4096 := WINDOW_SIZE_eq
  obtain ⟨l, hl⟩ := chunkUniform_ok_of_le (fun x => x) (List.replicate 9096 0) 5000
    (by omega)
  obtain ⟨hs, hcu⟩ := chunkUniform_ok_elim _ _ _ _ hl
  obtain ⟨a, ha, h3, h4⟩ := cuAux_emits (fun x => x) (List.replicate 9096 0) 5000
    (List.replicate 9096 0) 0 RollSum.default l hcu 9095 (by omega)
    (by rw [List.length_replicate]; omega) (by omega) (by omega)
  exact ⟨l, hl, a, ha, by rw [List.length_replicate, h3, h4]; omega⟩

/-- Witness for the amended C5 at `file = replicate WINDOW_SIZE 0`,
`size = WINDOW_SIZE`. -/
theorem c5_chunk_uniform_hash_amended_witness :
    ∃ l, chunkUniform (fun x => x) (List.replicate WINDOW_SIZE 0) WINDOW_SIZE
        = CURes.ok l
      ∧ ∀ a ∈ l, a.len = WINDOW_SIZE ∧ a.afrom % WINDOW_SIZE = 0
        ∧ a.afrom + WINDOW_SIZE ≤ (List.replicate WINDOW_SIZE (0 : Nat)).length
        ∧ a.hash = ((List.replicate WINDOW_SIZE 0).drop a.afrom).take
            (min (List.replicate WINDOW_SIZE (0 : Nat)).length (a.afrom + WINDOW_SIZE)
              - a.afrom)
        ∧ (a.afrom + WINDOW_SIZE ≤ (List.replicate WINDOW_SIZE (0 : Nat)).length →
            a.hash = ((List.replicate WINDOW_SIZE 0).drop a.afrom).take a.len
              ∧ a.afrom + a.len ≤ (List.replicate WINDOW_SIZE (0 : Nat)).length) := by
  obtain ⟨l, hl⟩ := chunkUniform_ok_of_le (fun x => x) (List.replicate WINDOW_SIZE 0)
    WINDOW_SIZE (le_refl _)
  exact ⟨l, hl, c5_chunk_uniform_hash_amended (fun x => x)
    (List.replicate WINDOW_SIZE 0) WINDOW_SIZE l hl⟩

/-! ## Tar-aware chunking (src/chunkers.rs lines 110-128) -/

/-- The entry-length computation of `chunk_tarball` (src/chunkers.rs lines
122-123): `x = ((data_len - 1) / 512) + 1`, `entry_len = (x + 1) * 512`, on
wrapping `usize` arithmetic — the subtraction wraps for `data_len = 0` and the
final multiplication wraps the result back to exactly 512 in that case. -/
def entryLenOf (dataLen : Nat) : Nat :=
  ((wsub dataLen 1 / 512 + 1 + 1) * 512) % U64

/-- The walk of `chunk_tarball` (src/chunkers.rs lines 110-128): at each
offset, stop (`None` from the iterator closure) when
`offset + 512 ≥ file.len()`; otherwise read the 512-byte header slice, hand it
to the header parser (`tar::Header::entry_size`/`path`/`file_name`, an
external crate, abstracted as `parseHdr`), stop if it fails, else materialise
a chunk at `(offset, entry_len)` via `chunk_specific` and advance the offset
by `entry_len`.  The source iterator is lazy and, for adversarial entry sizes
that wrap `entry_len` to 0, unproductive, so the model carries explicit fuel;
a `none` result is a panic inside `chunk_specific`. -/
def tarWalk (sha : List Nat → Sha256Sum) (parseHdr : List Nat → Option Nat)
    (file : List Nat) : Nat → Nat → Option (List Appearance)
  | 0, _ => some []
  | fuel + 1, offset =>
    if file.length ≤ offset + 512 then some []
    else
      ((sliceChecked file offset (offset + 512)).bind parseHdr).elim (some [])
        fun dataLen =>
          (chunkSpecific sha file offset (entryLenOf dataLen)).bind fun chunk =>
            (tarWalk sha parseHdr file fuel (offset + entryLenOf dataLen)).map
              (fun l => chunk :: l)

/-- `chunk_tarball`, with enough fuel for every productive walk. -/
def chunkTarball (sha : List Nat → Sha256Sum) (parseHdr : List Nat → Option Nat)
    (file : List Nat) : Option (List Appearance) :=
  tarWalk sha parseHdr file (file.length + 1) 0

theorem tarWalk_succ (sha : List Nat → Sha256Sum) (parseHdr : List Nat → Option Nat)
    (file : List Nat) (fuel offset : Nat) :
    tarWalk sha parseHdr file (fuel + 1) offset =
      if file.length ≤ offset + 512 then some []
      else
        ((sliceChecked file offset (offset + 512)).bind parseHdr).elim (some [])
          fun dataLen =>
            (chunkSpecific sha file offset (entryLenOf dataLen)).bind fun chunk =>
              (tarWalk sha parseHdr file fuel (offset + entryLenOf dataLen)).map
                (fun l => chunk :: l) := rfl

/-- The wrapped entry-length formula agrees with the specified
`ceil(entry_size/512)·512 + 512` for every entry size that does not overflow
the `usize` arithmetic, the zero size included. -/
theorem entryLenOf_eq (dataLen : Nat) (h : dataLen ≤ 2 ^ 64 - 1024) :
    entryLenOf dataLen = (dataLen + 511) / 512 * 512 + 512 := by
  have hU : U64 = 18446744073709551616 := U64_eq
  rcases Nat.eq_zero_or_pos dataLen with rfl | hpos
  · simp [entryLenOf, wsub, hU]
  · have hw : wsub dataLen 1 = dataLen - 1 :=
      wsub_small dataLen 1 hpos (by norm_num at h ⊢; omega)
    simp only [entryLenOf, hw, hU]
    norm_num at h
    have hx : (dataLen - 1) / 512 + 1 = (dataLen + 511) / 512 := by omega
    rw [hx]
    have hbound : ((dataLen + 511) / 512 + 1) * 512 < 18446744073709551616 := by
      have : (dataLen + 511) / 512 ≤ (18446744073709550592 + 511) / 512 := by
        apply Nat.div_le_div_right
        omega
      omega
    rw [Nat.mod_eq_of_lt hbound]
    omega

/-- Claim C9: tar-aware chunking walks the input as consecutive tar entries.
Whenever at least 512 bytes follow the current offset and the 512-byte header
there parses to `entry_size` (not overflowing the entry-length arithmetic),
the walk emits the chunk materialised at the current offset and advances by
`ceil(entry_size/512)·512 + 512` — exactly 512 for `entry_size = 0`; and the
walk stops exactly when fewer than 512 bytes remain past the current offset
(`offset + 512 ≥ file_len`). -/
theorem c9_chunk_tarball_walk (sha : List Nat → Sha256Sum)
    (parseHdr : List Nat → Option Nat) (file : List Nat) (fuel offset dataLen : Nat)
    (h1 : offset + 512 < file.length)
    (h2 : parseHdr ((file.drop offset).take 512) = some dataLen)
    (h3 : dataLen ≤ 2 ^ 64 - 1024) :
    tarWalk sha parseHdr file (fuel + 1) offset
      = (chunkSpecific sha file offset ((dataLen + 511) / 512 * 512 + 512)).bind
          (fun chunk =>
            (tarWalk sha parseHdr file fuel
              (offset + ((dataLen + 511) / 512 * 512 + 512))).map
              (fun l => chunk :: l))
    ∧ ∀ o, file.length ≤ o + 512 →
        tarWalk sha parseHdr file (fuel + 1) o = some [] := by
  constructor
  · rw [tarWalk_succ, if_neg (by omega),
      sliceChecked_some file _ _ (by omega) (by omega), Option.some_bind]
    have hidx : offset + 512 - offset = 512 := by omega
    rw [hidx, h2, Option.elim_some, entryLenOf_eq dataLen h3]
  · intro o ho
    rw [tarWalk_succ, if_pos ho]

/-- Witness for C9 at a concrete 2000-byte file whose header parses to a
zero-size entry. -/
theorem c9_chunk_tarball_walk_witness :
    (tarWalk (fun x => x) (fun _ => some 0) (List.replicate 2000 0) (0 + 1) 0
      = (chunkSpecific (fun x => x) (List.replicate 2000 0) 0
          ((0 + 511) / 512 * 512 + 512)).bind
          (fun chunk =>
            (tarWalk (fun x => x) (fun _ => some 0) (List.replicate 2000 0) 0
              (0 + ((0 + 511) / 512 * 512 + 512))).map (fun l => chunk :: l)))
    ∧ ∀ o, (List.replicate 2000 (0 : Nat)).length ≤ o + 512 →
        tarWalk (fun x => x) (fun _ => some 0) (List.replicate 2000 0) (0 + 1) o
          = some [] :=
  c9_chunk_tarball_walk (fun x => x) (fun _ => some 0) (List.replicate 2000 0) 0 0 0
    (by rw [List.length_replicate]; omega) rfl (by norm_num)

/-! ## Association-list maps

`HashMap` is used by the code only through `get`, `insert` and
`entry().or_…()`; an association list with first-match lookup models exactly
that interface (iteration order of the Rust map is never observed by the
claims). -/

/-- `HashMap::get`, first-match association-list lookup. -/
def alookup {α β : Type} [DecidableEq α] : List (α × β) → α → Option β
  | [], _ => none
  | (k, v) :: t, key => if k = key then some v else alookup t key

@[simp] theorem alookup_nil {α β : Type} [DecidableEq α] (key : α) :
    alookup ([] : List (α × β)) key = none := rfl

theorem alookup_cons {α β : Type} [DecidableEq α] (k : α) (v : β)
    (t : List (α × β)) (key : α) :
    alookup ((k, v) :: t) key = if k = key then some v else alookup t key := rfl

/-- `HashMap::insert`: replace the value at the key, or append the binding. -/
def insertApp {α β : Type} [DecidableEq α] : List (α × β) → α → β → List (α × β)
  | [], k, v => [(k, v)]
  | (k', v') :: t, k, v =>
    if k' = k then (k', v) :: t else (k', v') :: insertApp t k v

theorem alookup_insertApp {α β : Type} [DecidableEq α] (m : List (α × β))
    (k : α) (v : β) (key : α) :
    alookup (insertApp m k v) key = if key = k then some v else alookup m key := by
  induction m with
  | nil =>
    simp only [insertApp, alookup_cons, alookup_nil]
    by_cases h : k = key
    · rw [if_pos h, if_pos h.symm]
    · rw [if_neg h, if_neg (fun hh => h hh.symm)]
  | cons kv t ih =>
    obtain ⟨k', v'⟩ := kv
    simp only [insertApp]
    by_cases h1 : k' = k
    · subst h1
      rw [if_pos rfl, alookup_cons, alookup_cons]
      by_cases h2 : k' = key
      · rw [if_pos h2, if_pos h2, if_pos h2.symm]
      · rw [if_neg h2, if_neg h2, if_neg (fun hh => h2 hh.symm)]
    · rw [if_neg h1, alookup_cons, alookup_cons, ih]
      by_cases h2 : k' = key
      · have h3 : ¬ key = k := fun hh => h1 (h2.trans hh)
        rw [if_pos h2, if_neg h3, if_pos h2]
      · rw [if_neg h2, if_neg h2]

/-- The search output map `sha256 → latest seed offset`. -/
abbrev AppMap := List (Sha256Sum × Nat)

/-- The parsed `chunks` index `start_mark → Vec<(len, sha256)>`. -/
abbrev ChunksMap := List (Nat × List (Nat × Sha256Sum))

/-! ## The search engine (src/search.rs lines 6-32) -/

/-- The inner verification loop of `search` (src/search.rs lines 21-28): for
each `(len, their_sha)` in the colliding bucket, hash
`file[our_start..min(file_len, our_start+len)]` and record `our_start` on a
match.  The slice access is checked, as in Rust. -/
def procBucket (sha : List Nat → Sha256Sum) (file : List Nat) (start : Nat) :
    List (Nat × Sha256Sum) → AppMap → Option AppMap
  | [], m => some m
  | (len, theirSha) :: rest, m =>
    (sliceChecked file start (min file.length (start + len))).bind fun content =>
      procBucket sha file start rest
        (if sha content = theirSha then insertApp m theirSha start else m)

theorem procBucket_nil (sha : List Nat → Sha256Sum) (file : List Nat)
    (start : Nat) (m : AppMap) : procBucket sha file start [] m = some m := rfl

theorem procBucket_cons (sha : List Nat → Sha256Sum) (file : List Nat)
    (start len : Nat) (theirSha : Sha256Sum) (rest : List (Nat × Sha256Sum))
    (m : AppMap) :
    procBucket sha file start ((len, theirSha) :: rest) m =
      (sliceChecked file start (min file.length (start + len))).bind fun content =>
        procBucket sha file start rest
          (if sha content = theirSha then insertApp m theirSha start else m) := rfl

/-- One pass of `search` over the seed (src/search.rs lines 14-30): position
counter `n_bytes`, rolling-hash state, the accumulating appearance map.  The
progress callback is a pure observer and is dropped.  `none` models the panic
of `n_bytes + 1 - WINDOW_SIZE` underflowing (reached exactly when the filter
and the `chunks` index both hit within the first `WINDOW_SIZE - 1` bytes), or
of an out-of-range verification slice. -/
def searchAux (sha : List Nat → Sha256Sum) (filter : Nat → Bool)
    (chunks : ChunksMap) (file : List Nat) :
    Nat → RollSum → AppMap → List Nat → Option AppMap
  | _, _, m, [] => some m
  | n, rs, m, b :: rest =>
    let rs' := rs.input b
    if filter rs'.sum then
      if (alookup chunks rs'.sum).getD [] = [] then
        searchAux sha filter chunks file (n + 1) rs' m rest
      else if n + 1 < WINDOW_SIZE then none
      else
        (procBucket sha file (n + 1 - WINDOW_SIZE)
            ((alookup chunks rs'.sum).getD []) m).bind fun m' =>
          searchAux sha filter chunks file (n + 1) rs' m' rest
    else searchAux sha filter chunks file (n + 1) rs' m rest

theorem searchAux_nil (sha : List Nat → Sha256Sum) (filter : Nat → Bool)
    (chunks : ChunksMap) (file : List Nat) (n : Nat) (rs : RollSum) (m : AppMap) :
    searchAux sha filter chunks file n rs m [] = some m := rfl

theorem searchAux_cons (sha : List Nat → Sha256Sum) (filter : Nat → Bool)
    (chunks : ChunksMap) (file : List Nat) (n : Nat) (rs : RollSum) (m : AppMap)
    (b : Nat) (rest : List Nat) :
    searchAux sha filter chunks file n rs m (b :: rest) =
      if filter (rs.input b).sum then
        if (alookup chunks (rs.input b).sum).getD [] = [] then
          searchAux sha filter chunks file (n + 1) (rs.input b) m rest
        else if n + 1 < WINDOW_SIZE then none
        else
          (procBucket sha file (n + 1 - WINDOW_SIZE)
              ((alookup chunks (rs.input b).sum).getD []) m).bind fun m' =>
            searchAux sha filter chunks file (n + 1) (rs.input b) m' rest
      else searchAux sha filter chunks file (n + 1) (rs.input b) m rest := rfl

/-- `search` (src/search.rs lines 6-32).  The xorf binary fuse filter built by
`ControlFile::mk_filter` is an external crate; it is abstracted as the
predicate `filter` (an arbitrary superset of the distinct start-marks when it
has no false negatives, which is hypothesised where needed). -/
def searchModel (sha : List Nat → Sha256Sum) (filter : Nat → Bool)
    (chunks : ChunksMap) (file : List Nat) : Option AppMap :=
  searchAux sha filter chunks file 0 RollSum.default [] file

/-- Splitting a nonempty drop: the byte at position `n` and the tail. -/
theorem drop_cons_split (file : List Nat) :
    ∀ (n b : Nat) (r : List Nat), file.drop n = b :: r →
      file.take (n + 1) = file.take n ++ [b] ∧ file.drop (n + 1) = r := by
  induction file with
  | nil =>
    intro n b r h
    rw [List.drop_nil] at h
    exact absurd h (by simp)
  | cons f fs ih =>
    intro n b r h
    cases n with
    | zero =>
      rw [List.drop_zero] at h
      injection h with h1 h2
      subst h1; subst h2
      exact ⟨by simp, by simp⟩
    | succ k =>
      rw [List.drop_succ_cons] at h
      obtain ⟨h1, h2⟩ := ih k b r h
      constructor
      · rw [List.take_succ_cons, List.take_succ_cons, h1]
        rfl
      · rw [List.drop_succ_cons]
        exact h2

/-- The post-condition tracked through the search: the output map binds `hash`
to an offset at which SHA-256 verification succeeded (for the length of the
entry that matched there). -/
def VerifiedAt (sha : List Nat → Sha256Sum) (file : List Nat) (hash : Sha256Sum)
    (m : AppMap) : Prop :=
  ∃ p ℓ, alookup m hash = some p ∧ p + WINDOW_SIZE ≤ file.length
    ∧ sha ((file.drop p).take (min ℓ (file.length - p))) = hash

theorem procBucket_preserves (sha : List Nat → Sha256Sum) (file : List Nat)
    (hash : Sha256Sum) (bucket : List (Nat × Sha256Sum)) :
    ∀ m m' start, procBucket sha file start bucket m = some m' →
      start + WINDOW_SIZE ≤ file.length →
      VerifiedAt sha file hash m → VerifiedAt sha file hash m' := by
  induction bucket with
  | nil =>
    intro m m' start hres _ hV
    rw [procBucket_nil] at hres
    injection hres with h
    rw [← h]
    exact hV
  | cons e rest ih =>
    obtain ⟨ℓ0, ts0⟩ := e
    intro m m' start hres hsw hV
    rw [procBucket_cons, sliceChecked_some file _ _ (by omega) (by omega),
      Option.some_bind] at hres
    by_cases hc : sha ((file.drop start).take
        (min file.length (start + ℓ0) - start)) = ts0
    · rw [if_pos hc] at hres
      refine ih _ _ _ hres hsw ?_
      obtain ⟨p0, ℓp, hl, hpw, hv⟩ := hV
      by_cases hts : ts0 = hash
      · subst hts
        refine ⟨start, ℓ0, ?_, hsw, ?_⟩
        · rw [alookup_insertApp, if_pos rfl]
        · rw [← hc]
          congr 2
          omega
      · refine ⟨p0, ℓp, ?_, hpw, hv⟩
        rw [alookup_insertApp, if_neg (fun hh => hts hh.symm)]
        exact hl
    · rw [if_neg hc] at hres
      exact ih _ _ _ hres hsw hV

theorem procBucket_establishes (sha : List Nat → Sha256Sum) (file : List Nat)
    (bucket : List (Nat × Sha256Sum)) :
    ∀ m m' start len hash, procBucket sha file start bucket m = some m' →
      (len, hash) ∈ bucket →
      start + WINDOW_SIZE ≤ file.length →
      sha ((file.drop start).take (min len (file.length - start))) = hash →
      VerifiedAt sha file hash m' := by
  induction bucket with
  | nil =>
    intro m m' start len hash _ hmem _ _
    simp at hmem
  | cons e rest ih =>
    obtain ⟨ℓ0, ts0⟩ := e
    intro m m' start len hash hres hmem hsw hsha
    rw [procBucket_cons, sliceChecked_some file _ _ (by omega) (by omega),
      Option.some_bind] at hres
    rcases List.mem_cons.mp hmem with heq | hmem'
    · injection heq with h1 h2
      subst h1; subst h2
      have harith : min file.length (start + len) - start
          = min len (file.length - start) := by omega
      rw [harith, if_pos hsha] at hres
      refine procBucket_preserves sha file hash rest _ _ _ hres hsw ?_
      exact ⟨start, len, by rw [alookup_insertApp, if_pos rfl], hsw, hsha⟩
    · exact ih _ _ _ _ _ hres hmem' hsw hsha

theorem procBucket_some (sha : List Nat → Sha256Sum) (file : List Nat)
    (bucket : List (Nat × Sha256Sum)) :
    ∀ m start, start ≤ file.length →
      ∃ m', procBucket sha file start bucket m = some m' := by
  induction bucket with
  | nil => intro m start _; exact ⟨m, rfl⟩
  | cons e rest ih =>
    obtain ⟨ℓ0, ts0⟩ := e
    intro m start hs
    obtain ⟨m', hm'⟩ := ih
      (if sha ((file.drop start).take (min file.length (start + ℓ0) - start)) = ts0
        then insertApp m ts0 start else m) start hs
    refine ⟨m', ?_⟩
    rw [procBucket_cons, sliceChecked_some file _ _ (by omega) (by omega),
      Option.some_bind, hm']

theorem searchAux_preserves (sha : List Nat → Sha256Sum) (filter : Nat → Bool)
    (chunks : ChunksMap) (file : List Nat) (hash : Sha256Sum) :
    ∀ (rest : List Nat) (n : Nat) (rs : RollSum) (m res : AppMap),
      rest = file.drop n →
      searchAux sha filter chunks file n rs m rest = some res →
      VerifiedAt sha file hash m → VerifiedAt sha file hash res := by
  intro rest
  induction rest with
  | nil =>
    intro n rs m res _ hres hV
    rw [searchAux_nil] at hres
    injection hres with h
    rw [← h]
    exact hV
  | cons b rest' ih =>
    intro n rs m res hdrop hres hV
    obtain ⟨htake, hdrop'⟩ := drop_cons_split file n b rest' hdrop.symm
    have hn : n < file.length := by
      have h1 : (file.drop n).length = rest'.length + 1 := by
        rw [← hdrop]; simp
      rw [List.length_drop] at h1
      omega
    rw [searchAux_cons] at hres
    by_cases hf : filter (rs.input b).sum = true
    · rw [if_pos hf] at hres
      by_cases hb : (alookup chunks (rs.input b).sum).getD [] = []
      · rw [if_pos hb] at hres
        exact ih (n + 1) _ m res hdrop'.symm hres hV
      · rw [if_neg hb] at hres
        by_cases hlt : n + 1 < WINDOW_SIZE
        · rw [if_pos hlt] at hres
          exact absurd hres (by simp)
        · rw [if_neg hlt] at hres
          cases hpb : procBucket sha file (n + 1 - WINDOW_SIZE)
              ((alookup chunks (rs.input b).sum).getD []) m with
          | none => rw [hpb] at hres; exact absurd hres (by simp)
          | some m1 =>
            rw [hpb, Option.some_bind] at hres
            have hV1 := procBucket_preserves sha file hash _ m m1 _ hpb
              (by omega) hV
            exact ih (n + 1) _ m1 res hdrop'.symm hres hV1
    · rw [if_neg hf] at hres
      exact ih (n + 1) _ m res hdrop'.symm hres hV

/-- If neither the filter nor the `chunks` index can hit during the first
`WINDOW_SIZE - 1` positions, the search never panics. -/
theorem searchAux_total (sha : List Nat → Sha256Sum) (filter : Nat → Bool)
    (chunks : ChunksMap) (file : List Nat)
    (hquiet : ∀ j, j < file.length → j + 1 < WINDOW_SIZE →
      (alookup chunks ((rollFeed RollSum.default (file.take (j + 1))).sum)).getD []
        = []) :
    ∀ (rest : List Nat) (n : Nat) (rs : RollSum) (m : AppMap),
      rest = file.drop n →
      rs = rollFeed RollSum.default (file.take n) →
      ∃ res, searchAux sha filter chunks file n rs m rest = some res := by
  intro rest
  induction rest with
  | nil =>
    intro n rs m _ _
    exact ⟨m, searchAux_nil sha filter chunks file n rs m⟩
  | cons b rest' ih =>
    intro n rs m hdrop hrs
    obtain ⟨htake, hdrop'⟩ := drop_cons_split file n b rest' hdrop.symm
    have hn : n < file.length := by
      have h1 : (file.drop n).length = rest'.length + 1 := by
        rw [← hdrop]; simp
      rw [List.length_drop] at h1
      omega
    have hrs' : rs.input b = rollFeed RollSum.default (file.take (n + 1)) := by
      rw [hrs, ← rollFeed_concat, ← htake]
    rw [searchAux_cons]
    by_cases hf : filter (rs.input b).sum = true
    · rw [if_pos hf]
      by_cases hb : (alookup chunks (rs.input b).sum).getD [] = []
      · rw [if_pos hb]
        exact ih (n + 1) _ m hdrop'.symm hrs'
      · rw [if_neg hb]
        by_cases hlt : n + 1 < WINDOW_SIZE
        · exact absurd (by rw [hrs']; exact hquiet n hn hlt) hb
        · rw [if_neg hlt]
          obtain ⟨m1, hm1⟩ := procBucket_some sha file
            ((alookup chunks (rs.input b).sum).getD []) m (n + 1 - WINDOW_SIZE)
            (by omega)
          rw [hm1, Option.some_bind]
          exact ih (n + 1) _ m1 hdrop'.symm hrs'
    · rw [if_neg hf]
      exact ih (n + 1) _ m hdrop'.symm hrs'

theorem searchModel_total (sha : List Nat → Sha256Sum) (filter : Nat → Bool)
    (chunks : ChunksMap) (file : List Nat)
    (hquiet : ∀ j, j < file.length → j + 1 < WINDOW_SIZE →
      (alookup chunks ((rollFeed RollSum.default (file.take (j + 1))).sum)).getD []
        = []) :
    ∃ res, searchModel sha filter chunks file = some res :=
  searchAux_total sha filter chunks file hquiet file 0 RollSum.default [] rfl
    (by rw [List.take_zero, rollFeed_nil])

/-- The reaching lemma: starting anywhere at or before the firing position
`p + WINDOW_SIZE - 1` with correctly threaded state, a successful search run
ends in a map verifying `hash`. -/
theorem searchAux_finds (sha : List Nat → Sha256Sum) (filter : Nat → Bool)
    (chunks : ChunksMap) (file : List Nat) (p len : Nat) (hash : Sha256Sum)
    (mark : Nat)
    (hbytes : ∀ y ∈ file, y < 256)
    (hpW : p + WINDOW_SIZE ≤ file.length)
    (hplen : p + len ≤ file.length)
    (hsha : sha ((file.drop p).take len) = hash)
    (hmark : (rollFeed RollSum.default ((file.drop p).take WINDOW_SIZE)).sum = mark)
    (hmem : (len, hash) ∈ (alookup chunks mark).getD [])
    (hfilter : filter mark = true) :
    ∀ (rest : List Nat) (n : Nat) (rs : RollSum) (m res : AppMap),
      rest = file.drop n →
      rs = rollFeed RollSum.default (file.take n) →
      n ≤ p + WINDOW_SIZE - 1 →
      searchAux sha filter chunks file n rs m rest = some res →
      VerifiedAt sha file hash res := by
  have hW : WINDOW_SIZE = 4096 := WINDOW_SIZE_eq
  intro rest
  induction rest with
  | nil =>
    intro n rs m res hdrop _ hle _
    have h1 : file.length ≤ n := List.drop_eq_nil_iff.mp hdrop.symm
    omega
  | cons b rest' ih =>
    intro n rs m res hdrop hrs hle hres
    obtain ⟨htake, hdrop'⟩ := drop_cons_split file n b rest' hdrop.symm
    have hn : n < file.length := by
      have h1 : (file.drop n).length = rest'.length + 1 := by
        rw [← hdrop]; simp
      rw [List.length_drop] at h1
      omega
    have hrs' : rs.input b = rollFeed RollSum.default (file.take (n + 1)) := by
      rw [hrs, ← rollFeed_concat, ← htake]
    by_cases hfire : n = p + WINDOW_SIZE - 1
    · -- the firing position: the window ending here is the one at offset `p`
      subst hfire
      have htk : file.take (p + WINDOW_SIZE - 1 + 1) = file.take (p + WINDOW_SIZE) := by
        have h0 : p + WINDOW_SIZE - 1 + 1 = p + WINDOW_SIZE := by omega
        rw [h0]
      have hsum : (rs.input b).sum = mark := by
        rw [hrs', htk, ← hmark]
        have hb1 : ∀ y ∈ file.take (p + WINDOW_SIZE), y < 256 :=
          fun y hy => hbytes y (List.mem_of_mem_take hy)
        have hb2 : ∀ y ∈ (file.drop p).take WINDOW_SIZE, y < 256 :=
          fun y hy => hbytes y (List.mem_of_mem_drop (List.mem_of_mem_take hy))
        rw [rollFeed_spec _ hb1, rollFeed_spec _ hb2, mkState_sum, mkState_sum]
        have hlt : (file.take (p + WINDOW_SIZE)).length = p + WINDOW_SIZE := by
          rw [List.length_take]
          omega
        have hz1 : zpad (file.take (p + WINDOW_SIZE)) = (file.drop p).take WINDOW_SIZE := by
          rw [zpad_of_length_ge _ (by omega), hlt]
          have h2 : p + WINDOW_SIZE - WINDOW_SIZE = p := by omega
          rw [h2, List.drop_take]
          have h3 : p + WINDOW_SIZE - p = WINDOW_SIZE := by omega
          rw [h3]
        have hz2 : zpad ((file.drop p).take WINDOW_SIZE)
            = (file.drop p).take WINDOW_SIZE := by
          apply zpad_of_length_eq
          rw [List.length_take, List.length_drop]
          omega
        rw [hz1, hz2]
      rw [searchAux_cons, hsum] at hres
      rw [if_pos hfilter] at hres
      have hbne : ¬ (alookup chunks mark).getD [] = [] := by
        intro h0
        rw [h0] at hmem
        simp at hmem
      rw [if_neg hbne] at hres
      rw [if_neg (by omega : ¬ p + WINDOW_SIZE - 1 + 1 < WINDOW_SIZE)] at hres
      have hstart : p + WINDOW_SIZE - 1 + 1 - WINDOW_SIZE = p := by omega
      rw [hstart] at hres
      cases hpb : procBucket sha file p ((alookup chunks mark).getD []) m with
      | none => rw [hpb] at hres; exact absurd hres (by simp)
      | some m1 =>
        rw [hpb, Option.some_bind] at hres
        have hV1 : VerifiedAt sha file hash m1 := by
          refine procBucket_establishes sha file _ m m1 p len hash hpb hmem hpW ?_
          have h2 : min len (file.length - p) = len := by omega
          rw [h2]
          exact hsha
        exact searchAux_preserves sha filter chunks file hash rest'
          (p + WINDOW_SIZE - 1 + 1) _ m1 res hdrop'.symm hres hV1
    · -- before the firing position: step on, whatever the branch taken
      have hle' : n + 1 ≤ p + WINDOW_SIZE - 1 := by omega
      rw [searchAux_cons] at hres
      by_cases hf : filter (rs.input b).sum = true
      · rw [if_pos hf] at hres
        by_cases hb : (alookup chunks (rs.input b).sum).getD [] = []
        · rw [if_pos hb] at hres
          exact ih (n + 1) _ m res hdrop'.symm hrs' hle' hres
        · rw [if_neg hb] at hres
          by_cases hlt : n + 1 < WINDOW_SIZE
          · rw [if_pos hlt] at hres
            exact absurd hres (by simp)
          · rw [if_neg hlt] at hres
            cases hpb : procBucket sha file (n + 1 - WINDOW_SIZE)
                ((alookup chunks (rs.input b).sum).getD []) m with
            | none => rw [hpb] at hres; exact absurd hres (by simp)
            | some m1 =>
              rw [hpb, Option.some_bind] at hres
              exact ih (n + 1) _ m1 res hdrop'.symm hrs' hle' hres
      · rw [if_neg hf] at hres
        exact ih (n + 1) _ m res hdrop'.symm hrs' hle' hres

/-- Claim C1: search completeness.  For every seed, control-file index and
target chunk entry `(len, hash)` recorded in the bucket of its start-mark, if
the chunk's content occurs in the seed at some offset `p` (same SHA-256, same
rolling checksum over the window at `p`), then — provided the filter has no
false negative at that mark — any successfully returned appearance map binds
`hash` to an offset `p'` at which SHA-256 verification succeeded. -/
theorem c1_search_completeness (sha : List Nat → Sha256Sum) (filter : Nat → Bool)
    (chunks : ChunksMap) (file : List Nat) (p len : Nat) (hash : Sha256Sum)
    (mark : Nat) (res : AppMap)
    (hbytes : ∀ y ∈ file, y < 256)
    (hpW : p + WINDOW_SIZE ≤ file.length)
    (hplen : p + len ≤ file.length)
    (hsha : sha ((file.drop p).take len) = hash)
    (hmark : (rollFeed RollSum.default ((file.drop p).take WINDOW_SIZE)).sum = mark)
    (hmem : (len, hash) ∈ (alookup chunks mark).getD [])
    (hfilter : filter mark = true)
    (hres : searchModel sha filter chunks file = some res) :
    ∃ p' ℓ, alookup res hash = some p' ∧ p' + WINDOW_SIZE ≤ file.length
      ∧ sha ((file.drop p').take (min ℓ (file.length - p'))) = hash := by
  have hW : WINDOW_SIZE = 4096 := WINDOW_SIZE_eq
  exact searchAux_finds sha filter chunks file p len hash mark hbytes hpW hplen
    hsha hmark hmem hfilter file 0 RollSum.default [] res rfl
    (by rw [List.take_zero, rollFeed_nil]) (by omega) hres

theorem zpad_replicate_zero (k : Nat) :
    zpad (List.replicate k 0) = List.replicate WINDOW_SIZE 0 := by
  unfold zpad
  rw [List.length_replicate, ← List.replicate_add, List.drop_replicate]
  congr 1
  omega

/-- Concrete seed for the C1 witness: 4095 zero bytes followed by one `1`. -/
def c1File : List Nat := List.replicate 4095 0 ++ [1]

/-- The start-mark of the window at offset 0 of `c1File`. -/
def c1Mark : Nat := (rollFeed RollSum.default ((c1File.drop 0).take WINDOW_SIZE)).sum

/-- A one-entry `chunks` index recording that window. -/
def c1Chunks : ChunksMap := [(c1Mark, [(WINDOW_SIZE, c1File)])]

/-- Witness for C1: on the concrete seed `c1File` (whose only
window is also the recorded target chunk) the search returns a map binding
the chunk's digest to a verified offset. -/
theorem c1_search_completeness_witness :
    ∃ res p' ℓ, searchModel (fun x => x) (fun _ => true) c1Chunks c1File = some res
      ∧ alookup res c1File = some p' ∧ p' + WINDOW_SIZE ≤ c1File.length
      ∧ (c1File.drop p').take (min ℓ (c1File.length - p')) = c1File := by
  have hW : WINDOW_SIZE = 4096 := WINDOW_SIZE_eq
  have hbytes : ∀ y ∈ c1File, y < 256 := by
    intro y hy
    rcases List.mem_append.mp hy with h | h
    · rcases List.eq_of_mem_replicate h with rfl
      omega
    · simp at h
      omega
  have hlen : c1File.length = 4096 := by
    unfold c1File
    rw [List.length_append, List.length_replicate, List.length_singleton]
  have hslice : (c1File.drop 0).take WINDOW_SIZE = c1File := by
    rw [List.drop_zero]
    exact List.take_of_length_le (by omega)
  -- closed form of the recorded start-mark
  have hmark2 : c1Mark = ((WINDOW_SIZE * CHAR_OFFSET + 1) <<< 32) % U64
      ||| ((WINDOW_SIZE * (WINDOW_SIZE - 1) * CHAR_OFFSET + 1) &&& 0xffffffff) := by
    have h0 : c1Mark = (rollFeed RollSum.default c1File).sum := by
      unfold c1Mark
      rw [hslice]
    rw [h0, rollFeed_sum_eq c1File hbytes,
      zpad_of_length_eq _ (by omega)]
    have hsum : c1File.sum = 1 := by
      unfold c1File
      rw [List.sum_append, sum_replicate_zero]
      rfl
    have hwsum : wsum c1File = 1 := by
      unfold c1File
      rw [wsum_append_singleton, wsum_replicate_zero, sum_replicate_zero]
    rw [hsum, hwsum]
  -- the transient sums of the first window never hit the index
  have hquiet : ∀ j, j < c1File.length → j + 1 < WINDOW_SIZE →
      (alookup c1Chunks ((rollFeed RollSum.default (c1File.take (j + 1))).sum)).getD []
        = [] := by
    intro j hj hjW
    have htake : c1File.take (j + 1) = List.replicate (j + 1) 0 := by
      unfold c1File
      rw [List.take_append_of_le_length (by rw [List.length_replicate]; omega),
        List.take_replicate]
      congr 1
      omega
    have hsumj : (rollFeed RollSum.default (c1File.take (j + 1))).sum
        = ((WINDOW_SIZE * CHAR_OFFSET) <<< 32) % U64
          ||| ((WINDOW_SIZE * (WINDOW_SIZE - 1) * CHAR_OFFSET) &&& 0xffffffff) := by
      rw [htake, rollFeed_sum_eq _
        (fun y hy => by rcases List.eq_of_mem_replicate hy with rfl; omega)]
      rw [zpad_replicate_zero, wsum_replicate_zero, sum_replicate_zero,
        Nat.add_zero, Nat.add_zero]
    have hne : ¬ c1Mark = (rollFeed RollSum.default (c1File.take (j + 1))).sum := by
      rw [hmark2, hsumj]
      decide
    unfold c1Chunks
    rw [alookup_cons, if_neg hne]
    rfl
  obtain ⟨res, hres⟩ :=
    searchModel_total (fun x => x) (fun _ => true) c1Chunks c1File hquiet
  refine ⟨res, ?_⟩
  have hmem : (WINDOW_SIZE, c1File) ∈ (alookup c1Chunks c1Mark).getD [] := by
    unfold c1Chunks
    rw [alookup_cons, if_pos rfl]
    simp
  obtain ⟨p', ℓ, h1, h2, h3⟩ := c1_search_completeness (fun x => x) (fun _ => true)
    c1Chunks c1File 0 WINDOW_SIZE c1File c1Mark res hbytes (by omega) (by omega)
    hslice rfl hmem rfl hres
  exact ⟨p', ℓ, hres, h1, h2, h3⟩

/-- Claim C2 (code bug): with a control file whose single chunk entry records
as start-mark the transient rolling sum after the seed's first byte, searching
the one-byte seed `[0]` — far shorter than `WINDOW_SIZE` — reaches the bucket
loop at `n_bytes = 0` and evaluates `n_bytes + 1 - WINDOW_SIZE`, which
underflows `usize`: the Rust code panics (`none`) instead of returning an
empty `Ok` map. -/
theorem c2_search_underflow_panics :
    searchModel (fun x => x) (fun _ => true)
      [((rollFeed RollSum.default [0]).sum, [(WINDOW_SIZE, [])])] [0] = none := by
  decide

/-! ## Control-file parsing (src/controlfile.rs lines 22-126)

Lines are lists of characters (the `BufRead::lines` iterator already strips
newlines; I/O failure is out of scope).  Rust string helpers are translated
on `List Char`. -/

/-- Result of a fallible, possibly panicking computation: typed error
(`anyhow` error in the source), panic (`unwrap` of a failed conversion), or
success. -/
inductive PRes (α : Type) where
  | pok : α → PRes α
  | perr : PRes α
  | ppanic : PRes α
deriving DecidableEq

def PRes.bind {α β : Type} : PRes α → (α → PRes β) → PRes β
  | .pok a, f => f a
  | .perr, _ => .perr
  | .ppanic, _ => .ppanic

@[simp] theorem PRes.pok_bind {α β : Type} (a : α) (f : α → PRes β) :
    (PRes.pok a).bind f = f a := rfl

@[simp] theorem PRes.perr_bind {α β : Type} (f : α → PRes β) :
    (PRes.perr : PRes α).bind f = PRes.perr := rfl

@[simp] theorem PRes.ppanic_bind {α β : Type} (f : α → PRes β) :
    (PRes.ppanic : PRes α).bind f = PRes.ppanic := rfl

/-- ASCII whitespace (`char::is_ascii_whitespace`; the inputs of interest are
ASCII, so `str::trim`'s Unicode set coincides with it). -/
def isWsChar (c : Char) : Bool :=
  c == ' ' || c == '\t' || c == '\n' || c == '\x0c' || c == '\r'

/-- `str::trim`. -/
def trimChars (l : List Char) : List Char :=
  ((l.dropWhile isWsChar).reverse.dropWhile isWsChar).reverse

/-- `l.starts_with('#')`. -/
def startsWithHash : List Char → Bool
  | [] => false
  | c :: _ => c == '#'

/-- `str::split_once(':')`. -/
def splitOnceColon : List Char → Option (List Char × List Char)
  | [] => none
  | c :: t =>
    if c = ':' then some ([], t)
    else (splitOnceColon t).map (fun p => (c :: p.1, p.2))

def splitWsAux : List Char → List Char → List (List Char)
  | [], acc => if acc = [] then [] else [acc.reverse]
  | c :: t, acc =>
    if isWsChar c then
      if acc = [] then splitWsAux t [] else acc.reverse :: splitWsAux t []
    else splitWsAux t (c :: acc)

/-- `str::split_ascii_whitespace`. -/
def splitWs (l : List Char) : List (List Char) := splitWsAux l []

def decDigit? (c : Char) : Option Nat :=
  if '0' ≤ c ∧ c ≤ '9' then some (c.toNat - '0'.toNat) else none

def hexDigit? (c : Char) : Option Nat :=
  if '0' ≤ c ∧ c ≤ '9' then some (c.toNat - '0'.toNat)
  else if 'a' ≤ c ∧ c ≤ 'f' then some (c.toNat - 'a'.toNat + 10)
  else if 'A' ≤ c ∧ c ≤ 'F' then some (c.toNat - 'A'.toNat + 10)
  else none

def digitsVal (digit? : Char → Option Nat) (base : Nat) :
    List Char → Nat → Option Nat
  | [], acc => some acc
  | c :: t, acc =>
    match digit? c with
    | none => none
    | some d => digitsVal digit? base t (acc * base + d)

/-- `usize`/`u64` parsing (`str::parse::<usize>`, `u64::from_str_radix`):
an optional leading `+`, at least one digit, and an overflow check. -/
def parseNat (digit? : Char → Option Nat) (base : Nat) (l : List Char) : Option Nat :=
  let l2 := match l with
    | '+' :: t => t
    | _ => l
  match l2 with
  | [] => none
  | _ => (digitsVal digit? base l2 0).bind fun v =>
      if v < U64 then some v else none

def parseDecU64 (l : List Char) : Option Nat := parseNat decDigit? 10 l

def parseHexU64 (l : List Char) : Option Nat := parseNat hexDigit? 16 l

/-- `hex::decode`: pairs of hex digits to bytes; odd length or a non-hex
character fails. -/
def hexDecode : List Char → Option (List Nat)
  | [] => some []
  | [_] => none
  | c1 :: c2 :: t =>
    match hexDigit? c1, hexDigit? c2 with
    | some a, some b => (hexDecode t).map (fun r => (16 * a + b) :: r)
    | _, _ => none

/-- `impl FromStr for Appearance` (src/controlfile.rs lines 110-126): four
whitespace-separated fields parsed in order (extra fields are ignored); the
final `hex::decode(…)?.try_into().unwrap()` panics when the decoded hash is
not exactly 32 bytes. -/
def parseAppearanceLine (l : List Char) : PRes Appearance :=
  match splitWs l with
  | [] => .perr
  | f1 :: rest1 =>
    match parseDecU64 f1 with
    | none => .perr
    | some from0 =>
      match rest1 with
      | [] => .perr
      | f2 :: rest2 =>
        match parseDecU64 f2 with
        | none => .perr
        | some len0 =>
          match rest2 with
          | [] => .perr
          | f3 :: rest3 =>
            match parseHexU64 f3 with
            | none => .perr
            | some mark =>
              match rest3 with
              | [] => .perr
              | f4 :: _ =>
                match hexDecode f4 with
                | none => .perr
                | some bytes =>
                  if bytes.length = 32 then
                    .pok { afrom := from0, len := len0, start_mark := mark
                           hash := bytes }
                  else .ppanic

/-- The chunk-section loop: parse every line, first failure wins. -/
def parseAppearances : List (List Char) → PRes (List Appearance)
  | [] => .pok []
  | l :: t =>
    (parseAppearanceLine l).bind fun a =>
      (parseAppearances t).bind fun as2 => .pok (a :: as2)

/-- The header loop (src/controlfile.rs lines 34-51): `Key: Value` pairs on
trimmed lines; lines without a colon and unrecognised keys warn and continue;
`Length` parses a decimal (`?`-propagated error), `SHA-256` hex-decodes
(`?`-propagated error) and then `try_into().unwrap()` panics unless the
digest is exactly 32 bytes. -/
def parseHeader : Option Nat → Option (List Nat) → List (List Char) →
    PRes (Option Nat × Option (List Nat))
  | tl, sh, [] => .pok (tl, sh)
  | tl, sh, l :: t =>
    match splitOnceColon (trimChars l) with
    | none => parseHeader tl sh t
    | some kv =>
      if trimChars kv.1 = "Length".toList then
        match parseDecU64 (trimChars kv.2) with
        | none => .perr
        | some n => parseHeader (some n) sh t
      else if trimChars kv.1 = "SHA-256".toList then
        match hexDecode (trimChars kv.2) with
        | none => .perr
        | some bytes =>
          if bytes.length = 32 then parseHeader tl (some bytes) t
          else .ppanic
      else parseHeader tl sh t

/-- Splitting at the `---` separator line (trimmed comparison), mirroring the
`by_ref` header loop followed by the chunk loop on the remaining lines. -/
def splitAtSep : List (List Char) → List (List Char) × List (List Char)
  | [] => ([], [])
  | l :: t =>
    if trimChars l = "---".toList then ([], t)
    else
      let p := splitAtSep t
      (l :: p.1, p.2)

def headerSection (lines : List (List Char)) : List (List Char) :=
  (splitAtSep (lines.filter (fun l => ! startsWithHash l))).1

def chunkSection (lines : List (List Char)) : List (List Char) :=
  (splitAtSep (lines.filter (fun l => ! startsWithHash l))).2

/-- The parsed control file (src/controlfile.rs lines 15-20). -/
structure CtrlFile where
  total_len : Nat
  total_sha256 : List Nat
  chunks : ChunksMap
  appearances : List (Sha256Sum × (Nat × List Nat))
deriving DecidableEq

/-- `chunks.entry(start_mark).or_default().push((len, hash))`: append the
entry to the bucket of `mark`, creating the bucket if absent. -/
def pushBucket : ChunksMap → Nat → (Nat × Sha256Sum) → ChunksMap
  | [], mark, e => [(mark, [e])]
  | (k, bucket) :: t, mark, e =>
    if k = mark then (k, bucket ++ [e]) :: t
    else (k, bucket) :: pushBucket t mark e

/-- The per-line index update of `ControlFile::read` (src/controlfile.rs
lines 52-68): push `(len, hash)` into `chunks[start_mark]` only when the hash
is new, and always append `from` to `appearances[hash]` (created with the
first line's `len`). -/
def buildStep (st : ChunksMap × List (Sha256Sum × (Nat × List Nat)))
    (ap : Appearance) : ChunksMap × List (Sha256Sum × (Nat × List Nat)) :=
  (alookup st.2 ap.hash).elim
    (pushBucket st.1 ap.start_mark (ap.len, ap.hash),
      st.2 ++ [(ap.hash, (ap.len, [ap.afrom]))])
    (fun lo => (st.1, insertApp st.2 ap.hash (lo.1, lo.2 ++ [ap.afrom])))

def buildIndexes (aps : List Appearance) :
    ChunksMap × List (Sha256Sum × (Nat × List Nat)) :=
  aps.foldl buildStep ([], [])

/-- `ControlFile::read` (src/controlfile.rs lines 23-75) on the line list:
comment lines are filtered out, the header is parsed up to `---`, every
remaining line is parsed as a chunk line and indexed, and the required header
keys are checked last (`ok_or` at the struct construction). -/
def readModel (lines : List (List Char)) : PRes CtrlFile :=
  (parseHeader none none (headerSection lines)).bind fun st =>
    (parseAppearances (chunkSection lines)).bind fun aps =>
      st.1.elim .perr fun tl =>
        st.2.elim .perr fun sh =>
          .pok { total_len := tl, total_sha256 := sh
                 chunks := (buildIndexes aps).1
                 appearances := (buildIndexes aps).2 }

/-- Claim C7 (code bug): a chunk line whose hash field is valid hex of the
wrong length (`"abcd"`, two bytes) drives `ControlFile::read` into
`hex::decode(…)?.try_into().unwrap()` with an `Err`, i.e. a panic — not the
typed error the spec requires for a wrong hash length. -/
theorem c7_wrong_hash_length_panics :
    readModel
      ["Length: 10".toList,
        "SHA-256: ".toList ++ List.replicate 64 '0',
        "---".toList,
        "0 4096 ff abcd".toList] = PRes.ppanic := by
  decide

/-! ## Invariants of the parsed indexes (claim C6) -/

/-- The first chunk line carrying a given hash. -/
def firstOcc : List Appearance → Sha256Sum → Option Appearance
  | [], _ => none
  | a :: t, h => if a.hash = h then some a else firstOcc t h

/-- All `from` fields of lines carrying a given hash, in file order. -/
def fromsOf : List Appearance → Sha256Sum → List Nat
  | [], _ => []
  | a :: t, h => if a.hash = h then a.afrom :: fromsOf t h else fromsOf t h

def bucketCount : List (Nat × Sha256Sum) → Sha256Sum → Nat
  | [], _ => 0
  | e :: t, h => (if e.2 = h then 1 else 0) + bucketCount t h

/-- How many `(len, hash)` entries with this hash exist across all buckets. -/
def countHash : ChunksMap → Sha256Sum → Nat
  | [], _ => 0
  | (_, bucket) :: t, h => bucketCount bucket h + countHash t h

theorem alookup_append_none {α β : Type} [DecidableEq α] (l1 l2 : List (α × β))
    (key : α) (h : alookup l1 key = none) :
    alookup (l1 ++ l2) key = alookup l2 key := by
  induction l1 with
  | nil => rfl
  | cons kv t ih =>
    obtain ⟨k, v⟩ := kv
    rw [alookup_cons] at h
    by_cases hk : k = key
    · rw [if_pos hk] at h
      exact absurd h (by simp)
    · rw [if_neg hk] at h
      rw [List.cons_append, alookup_cons, if_neg hk]
      exact ih h

theorem alookup_append_some {α β : Type} [DecidableEq α] (l1 l2 : List (α × β))
    (key : α) (v : β) (h : alookup l1 key = some v) :
    alookup (l1 ++ l2) key = some v := by
  induction l1 with
  | nil => rw [alookup_nil] at h; exact absurd h (by simp)
  | cons kv t ih =>
    obtain ⟨k, v'⟩ := kv
    rw [alookup_cons] at h
    rw [List.cons_append, alookup_cons]
    by_cases hk : k = key
    · rw [if_pos hk] at h ⊢; exact h
    · rw [if_neg hk] at h ⊢; exact ih h

theorem firstOcc_append_some (pre : List Appearance) (ap a0 : Appearance)
    (h : Sha256Sum) (hf : firstOcc pre h = some a0) :
    firstOcc (pre ++ [ap]) h = some a0 := by
  induction pre with
  | nil => simp [firstOcc] at hf
  | cons a t ih =>
    rw [firstOcc] at hf
    rw [List.cons_append, firstOcc]
    by_cases ha : a.hash = h
    · rw [if_pos ha] at hf ⊢; exact hf
    · rw [if_neg ha] at hf ⊢; exact ih hf

theorem firstOcc_append_none (pre : List Appearance) (ap : Appearance)
    (h : Sha256Sum) (hf : firstOcc pre h = none) :
    firstOcc (pre ++ [ap]) h = if ap.hash = h then some ap else none := by
  induction pre with
  | nil => rfl
  | cons a t ih =>
    rw [firstOcc] at hf
    rw [List.cons_append, firstOcc]
    by_cases ha : a.hash = h
    · rw [if_pos ha] at hf; exact absurd hf (by simp)
    · rw [if_neg ha] at hf ⊢; exact ih hf

theorem firstOcc_append_ne (pre : List Appearance) (ap : Appearance)
    (h : Sha256Sum) (hne : ¬ ap.hash = h) :
    firstOcc (pre ++ [ap]) h = firstOcc pre h := by
  induction pre with
  | nil => simp [firstOcc, hne]
  | cons a t ih =>
    rw [List.cons_append, firstOcc, firstOcc]
    by_cases ha : a.hash = h
    · rw [if_pos ha, if_pos ha]
    · rw [if_neg ha, if_neg ha]; exact ih

theorem fromsOf_append (pre : List Appearance) (ap : Appearance) (h : Sha256Sum) :
    fromsOf (pre ++ [ap]) h
      = fromsOf pre h ++ (if ap.hash = h then [ap.afrom] else []) := by
  induction pre with
  | nil =>
    rw [List.nil_append, fromsOf, fromsOf]
    by_cases ha : ap.hash = h
    · rw [if_pos ha, if_pos ha]; rfl
    · rw [if_neg ha, if_neg ha]; rfl
  | cons a t ih =>
    rw [List.cons_append, fromsOf, fromsOf]
    by_cases ha : a.hash = h
    · rw [if_pos ha, if_pos ha, ih, List.cons_append]
    · rw [if_neg ha, if_neg ha, ih]

theorem fromsOf_eq_nil_of_firstOcc_none (pre : List Appearance) (h : Sha256Sum)
    (hf : firstOcc pre h = none) : fromsOf pre h = [] := by
  induction pre with
  | nil => rfl
  | cons a t ih =>
    rw [firstOcc] at hf
    rw [fromsOf]
    by_cases ha : a.hash = h
    · rw [if_pos ha] at hf; exact absurd hf (by simp)
    · rw [if_neg ha] at hf ⊢; exact ih hf

theorem fromsOf_ne_nil_of_firstOcc_some (pre : List Appearance) (h : Sha256Sum)
    (a0 : Appearance) (hf : firstOcc pre h = some a0) : fromsOf pre h ≠ [] := by
  induction pre with
  | nil => simp [firstOcc] at hf
  | cons a t ih =>
    rw [firstOcc] at hf
    rw [fromsOf]
    by_cases ha : a.hash = h
    · rw [if_pos ha]; simp
    · rw [if_neg ha] at hf ⊢; exact ih hf

theorem fromsOf_mem (pre : List Appearance) (h : Sha256Sum) (o : Nat) :
    o ∈ fromsOf pre h → ∃ a ∈ pre, a.afrom = o := by
  induction pre with
  | nil => intro ho; simp [fromsOf] at ho
  | cons a t ih =>
    intro ho
    rw [fromsOf] at ho
    by_cases ha : a.hash = h
    · rw [if_pos ha] at ho
      rcases List.mem_cons.mp ho with rfl | ho'
      · exact ⟨a, List.mem_cons_self _ _, rfl⟩
      · obtain ⟨a', ha', he⟩ := ih ho'
        exact ⟨a', List.mem_cons_of_mem _ ha', he⟩
    · rw [if_neg ha] at ho
      obtain ⟨a', ha', he⟩ := ih ho
      exact ⟨a', List.mem_cons_of_mem _ ha', he⟩

theorem pushBucket_mem (cks : ChunksMap) (mark : Nat) (e : Nat × Sha256Sum)
    (m ℓ : Nat) (h : Sha256Sum) :
    (ℓ, h) ∈ (alookup (pushBucket cks mark e) m).getD []
      ↔ (ℓ, h) ∈ (alookup cks m).getD [] ∨ (m = mark ∧ (ℓ, h) = e) := by
  induction cks with
  | nil =>
    rw [pushBucket, alookup_cons, alookup_nil]
    by_cases hm : mark = m
    · rw [if_pos hm]
      simp [hm.symm]
    · rw [if_neg hm]
      have hm' : ¬ m = mark := fun hh => hm hh.symm
      simp [hm']
  | cons kb t ih =>
    obtain ⟨k, bucket⟩ := kb
    rw [pushBucket]
    by_cases hk : k = mark
    · rw [if_pos hk, alookup_cons, alookup_cons]
      by_cases hm : k = m
      · rw [if_pos hm, if_pos hm]
        have hmm : m = mark := by rw [← hm, hk]
        simp [hmm, List.mem_append]
      · rw [if_neg hm, if_neg hm]
        have hmm : ¬ m = mark := fun hh => hm (by rw [hk, ← hh])
        simp [hmm]
    · rw [if_neg hk, alookup_cons, alookup_cons]
      by_cases hm : k = m
      · rw [if_pos hm, if_pos hm]
        have hmm : ¬ m = mark := fun hh => hk (by rw [hm, hh])
        simp [hmm]
      · rw [if_neg hm, if_neg hm]
        exact ih

theorem bucketCount_append (b1 b2 : List (Nat × Sha256Sum)) (h : Sha256Sum) :
    bucketCount (b1 ++ b2) h = bucketCount b1 h + bucketCount b2 h := by
  induction b1 with
  | nil => rw [List.nil_append, bucketCount]; omega
  | cons e t ih =>
    rw [List.cons_append, bucketCount, bucketCount, ih]
    omega

theorem pushBucket_count (cks : ChunksMap) (mark : Nat) (e : Nat × Sha256Sum)
    (h : Sha256Sum) :
    countHash (pushBucket cks mark e) h
      = countHash cks h + (if e.2 = h then 1 else 0) := by
  induction cks with
  | nil =>
    rw [pushBucket, countHash, countHash, countHash, bucketCount, bucketCount]
    omega
  | cons kb t ih =>
    obtain ⟨k, bucket⟩ := kb
    rw [pushBucket]
    by_cases hk : k = mark
    · rw [if_pos hk, countHash, countHash, bucketCount_append, bucketCount,
        bucketCount]
      omega
    · rw [if_neg hk, countHash, countHash, ih]
      omega

/-- The invariant of the index-building loop after processing the lines
`pre`. -/
def IndexInv (pre : List Appearance) (cks : ChunksMap)
    (apps : List (Sha256Sum × (Nat × List Nat))) : Prop :=
  (∀ h, alookup apps h
      = (firstOcc pre h).map (fun a0 => (a0.len, fromsOf pre h)))
  ∧ (∀ m ℓ h, (ℓ, h) ∈ (alookup cks m).getD []
      ↔ ∃ a0, firstOcc pre h = some a0 ∧ a0.len = ℓ ∧ a0.start_mark = m)
  ∧ (∀ h, countHash cks h = if (firstOcc pre h).isSome then 1 else 0)

theorem buildStep_inv (pre : List Appearance) (cks : ChunksMap)
    (apps : List (Sha256Sum × (Nat × List Nat))) (ap : Appearance)
    (hinv : IndexInv pre cks apps) :
    IndexInv (pre ++ [ap]) (buildStep (cks, apps) ap).1
      (buildStep (cks, apps) ap).2 := by
  obtain ⟨hI1, hI2, hI3⟩ := hinv
  unfold buildStep
  cases hlk : alookup apps ap.hash with
  | none =>
    have hfo : firstOcc pre ap.hash = none := by
      have h0 := hI1 ap.hash
      rw [hlk] at h0
      cases hcase : firstOcc pre ap.hash with
      | none => rfl
      | some a0 => rw [hcase] at h0; simp at h0
    rw [Option.elim_none]
    refine ⟨?_, ?_, ?_⟩
    · intro h
      by_cases hh : h = ap.hash
      · subst hh
        rw [alookup_append_none _ _ _ hlk, alookup_cons, if_pos rfl,
          firstOcc_append_none _ _ _ hfo, if_pos rfl, fromsOf_append,
          fromsOf_eq_nil_of_firstOcc_none _ _ hfo, if_pos rfl]
        simp
      · have hne : ¬ ap.hash = h := fun hhh => hh hhh.symm
        rw [firstOcc_append_ne _ _ _ hne, fromsOf_append, if_neg hne,
          List.append_nil]
        cases hcase : firstOcc pre h with
        | none =>
          have h1 := hI1 h
          rw [hcase] at h1
          simp only [Option.map_none'] at h1
          rw [alookup_append_none _ _ _ h1, alookup_cons, if_neg hne, alookup_nil]
          rfl
        | some a0 =>
          have h1 := hI1 h
          rw [hcase] at h1
          simp only [Option.map_some'] at h1
          rw [alookup_append_some _ _ _ _ h1]
          rfl
    · intro m ℓ h
      rw [pushBucket_mem]
      by_cases hh : h = ap.hash
      · subst hh
        rw [firstOcc_append_none _ _ _ hfo, if_pos rfl]
        constructor
        · intro hdisj
          rcases hdisj with hold | ⟨hm, hpair⟩
          · obtain ⟨a0, ha0, _, _⟩ := (hI2 m ℓ ap.hash).mp hold
            rw [hfo] at ha0
            exact absurd ha0 (by simp)
          · injection hpair with hp1 hp2
            exact ⟨ap, rfl, hp1.symm, hm.symm⟩
        · rintro ⟨a0, ha0, hlen0, hmark0⟩
          injection ha0 with ha0'
          right
          constructor
          · rw [← hmark0, ha0']
          · rw [← hlen0, ha0']
      · have hne : ¬ ap.hash = h := fun hhh => hh hhh.symm
        rw [firstOcc_append_ne _ _ _ hne]
        constructor
        · intro hdisj
          rcases hdisj with hold | ⟨_, hpair⟩
          · exact (hI2 m ℓ h).mp hold
          · injection hpair with _ hp2
            exact absurd hp2.symm hne
        · intro hex
          exact Or.inl ((hI2 m ℓ h).mpr hex)
    · intro h
      rw [pushBucket_count]
      by_cases hh : h = ap.hash
      · subst hh
        rw [firstOcc_append_none _ _ _ hfo, if_pos rfl]
        have h0 := hI3 ap.hash
        rw [hfo] at h0
        simp only [Option.isSome_none, Bool.false_eq_true, if_false] at h0
        rw [h0]
        simp
      · have hne : ¬ ap.hash = h := fun hhh => hh hhh.symm
        rw [firstOcc_append_ne _ _ _ hne, hI3 h]
        have : ((ap.len, ap.hash) : Nat × Sha256Sum).2 = ap.hash := rfl
        rw [this, if_neg hne, Nat.add_zero]
  | some lo =>
    have h0 := hI1 ap.hash
    rw [hlk] at h0
    cases hcase : firstOcc pre ap.hash with
    | none => rw [hcase] at h0; simp at h0
    | some a0 =>
      rw [hcase] at h0
      simp only [Option.map_some'] at h0
      injection h0 with h0'
      rw [Option.elim_some]
      refine ⟨?_, ?_, ?_⟩
      · intro h
        by_cases hh : h = ap.hash
        · subst hh
          rw [alookup_insertApp, if_pos rfl, firstOcc_append_some _ _ _ _ hcase,
            fromsOf_append, if_pos rfl]
          simp only [Option.map_some']
          rw [h0']
        · have hne : ¬ ap.hash = h := fun hhh => hh hhh.symm
          rw [alookup_insertApp, if_neg hh, firstOcc_append_ne _ _ _ hne,
            fromsOf_append, if_neg hne, List.append_nil]
          exact hI1 h
      · intro m ℓ h
        by_cases hh : h = ap.hash
        · subst hh
          rw [firstOcc_append_some _ _ _ _ hcase, ← hcase]
          exact hI2 m ℓ ap.hash
        · have hne : ¬ ap.hash = h := fun hhh => hh hhh.symm
          rw [firstOcc_append_ne _ _ _ hne]
          exact hI2 m ℓ h
      · intro h
        by_cases hh : h = ap.hash
        · subst hh
          rw [firstOcc_append_some _ _ _ _ hcase, ← hcase]
          exact hI3 ap.hash
        · have hne : ¬ ap.hash = h := fun hhh => hh hhh.symm
          rw [firstOcc_append_ne _ _ _ hne]
          exact hI3 h

theorem buildIndexes_go (aps : List Appearance) :
    ∀ (pre : List Appearance) (cks : ChunksMap)
      (apps : List (Sha256Sum × (Nat × List Nat))),
      IndexInv pre cks apps →
      IndexInv (pre ++ aps) (aps.foldl buildStep (cks, apps)).1
        (aps.foldl buildStep (cks, apps)).2 := by
  induction aps with
  | nil =>
    intro pre cks apps h
    simpa using h
  | cons a t ih =>
    intro pre cks apps h
    have h1 := buildStep_inv pre cks apps a h
    have h2 := ih (pre ++ [a]) (buildStep (cks, apps) a).1
      (buildStep (cks, apps) a).2 h1
    simpa [List.append_assoc] using h2

theorem buildIndexes_spec (aps : List Appearance) :
    IndexInv aps (buildIndexes aps).1 (buildIndexes aps).2 := by
  have hbase : IndexInv [] [] [] := by
    refine ⟨fun h => rfl, fun m ℓ h => ?_, fun h => rfl⟩
    simp [firstOcc, alookup]
  have h := buildIndexes_go aps [] [] [] hbase
  simpa [buildIndexes] using h

/-- Claim C6 (amended): after a successful parse, each distinct hash
contributes exactly one `(len, hash)` entry across all buckets; every bucket
entry `(len, hash)` has an appearances entry with the same `len` whose
nonempty offset list collects the `from` fields of the lines carrying that
hash, in file order; and every stored offset lies in `[0, total_len)`
*provided* the input lines' `from` fields do — the parser performs no range
check against `Length`, so the unconditional bound in the claim fails. -/
theorem c6_controlfile_index_amended (lines : List (List Char)) (cf : CtrlFile)
    (hread : readModel lines = PRes.pok cf) :
    ∃ aps, parseAppearances (chunkSection lines) = PRes.pok aps
      ∧ cf.chunks = (buildIndexes aps).1
      ∧ cf.appearances = (buildIndexes aps).2
      ∧ (∀ m ℓ h, (ℓ, h) ∈ (alookup cf.chunks m).getD [] →
          countHash cf.chunks h = 1
          ∧ ∃ offs, alookup cf.appearances h = some (ℓ, offs)
            ∧ offs = fromsOf aps h ∧ offs ≠ [])
      ∧ ((∀ a ∈ aps, a.afrom < cf.total_len) →
          ∀ h ℓ0 offs, alookup cf.appearances h = some (ℓ0, offs) →
            ∀ o ∈ offs, o < cf.total_len) := by
  unfold readModel at hread
  cases hh : parseHeader none none (headerSection lines) with
  | perr => rw [hh, PRes.perr_bind] at hread; exact absurd hread (by simp)
  | ppanic => rw [hh, PRes.ppanic_bind] at hread; exact absurd hread (by simp)
  | pok st =>
    rw [hh, PRes.pok_bind] at hread
    cases ha : parseAppearances (chunkSection lines) with
    | perr => rw [ha, PRes.perr_bind] at hread; exact absurd hread (by simp)
    | ppanic => rw [ha, PRes.ppanic_bind] at hread; exact absurd hread (by simp)
    | pok aps =>
      rw [ha, PRes.pok_bind] at hread
      cases hst1 : st.1 with
      | none =>
        rw [hst1, Option.elim_none] at hread
        exact absurd hread (by simp)
      | some tl =>
        rw [hst1, Option.elim_some] at hread
        cases hst2 : st.2 with
        | none =>
          rw [hst2, Option.elim_none] at hread
          exact absurd hread (by simp)
        | some sh =>
          rw [hst2, Option.elim_some] at hread
          injection hread with hcf
          subst hcf
          obtain ⟨hI1, hI2, hI3⟩ := buildIndexes_spec aps
          refine ⟨aps, rfl, rfl, rfl, ?_, ?_⟩
          · intro m ℓ h hmem
            dsimp only at hmem ⊢
            obtain ⟨a0, hfo, hlen0, hmark0⟩ := (hI2 m ℓ h).mp hmem
            refine ⟨?_, fromsOf aps h, ?_, rfl,
              fromsOf_ne_nil_of_firstOcc_some _ _ _ hfo⟩
            · rw [hI3 h, hfo]
              rfl
            · rw [hI1 h, hfo]
              simp only [Option.map_some']
              rw [hlen0]
          · intro hbound h ℓ0 offs hlook o ho
            dsimp only at hlook ⊢
            rw [hI1 h] at hlook
            cases hcase : firstOcc aps h with
            | none => rw [hcase] at hlook; simp at hlook
            | some a0 =>
              rw [hcase] at hlook
              simp only [Option.map_some'] at hlook
              injection hlook with hpair
              cases hpair
              obtain ⟨a', ha', hfrom⟩ := fromsOf_mem aps h o ho
              rw [← hfrom]
              exact hbound a' ha'

/-- Line material shared by the C6 witness and counterexample. -/
def zeros32 : List Nat := List.replicate 32 0

/-- A well-formed four-line control file whose single chunk starts at 0. -/
def c6Lines : List (List Char) :=
  ["Length: 100".toList,
    "SHA-256: ".toList ++ List.replicate 64 '0',
    "---".toList,
    "0 4096 ff ".toList ++ List.replicate 64 '0']

def c6Cf : CtrlFile :=
  { total_len := 100
    total_sha256 := zeros32
    chunks := [(255, [(4096, zeros32)])]
    appearances := [(zeros32, (4096, [0]))] }

/-- Witness for the amended C6 at the concrete control file `c6Lines`. -/
theorem c6_controlfile_index_amended_witness :
    ∃ aps, parseAppearances (chunkSection c6Lines) = PRes.pok aps
      ∧ c6Cf.chunks = (buildIndexes aps).1
      ∧ c6Cf.appearances = (buildIndexes aps).2
      ∧ (∀ m ℓ h, (ℓ, h) ∈ (alookup c6Cf.chunks m).getD [] →
          countHash c6Cf.chunks h = 1
          ∧ ∃ offs, alookup c6Cf.appearances h = some (ℓ, offs)
            ∧ offs = fromsOf aps h ∧ offs ≠ [])
      ∧ ((∀ a ∈ aps, a.afrom < c6Cf.total_len) →
          ∀ h ℓ0 offs, alookup c6Cf.appearances h = some (ℓ0, offs) →
            ∀ o ∈ offs, o < c6Cf.total_len) :=
  c6_controlfile_index_amended c6Lines c6Cf (by decide)

/-- The same control file with `Length: 10` and a chunk line at `from = 20`. -/
def c6CexLines : List (List Char) :=
  ["Length: 10".toList,
    "SHA-256: ".toList ++ List.replicate 64 '0',
    "---".toList,
    "20 4096 ff ".toList ++ List.replicate 64 '0']

def c6CexCf : CtrlFile :=
  { total_len := 10
    total_sha256 := zeros32
    chunks := [(255, [(4096, zeros32)])]
    appearances := [(zeros32, (4096, [20]))] }

/-- Counterexample to C6 as stated: the parse succeeds although the chunk
line's `from = 20` lies outside `[0, total_len) = [0, 10)`; the out-of-range
offset is stored in `appearances` unchecked. -/
theorem c6_controlfile_index_counterexample :
    readModel c6CexLines = PRes.pok c6CexCf
    ∧ alookup c6CexCf.appearances zeros32 = some (4096, [20])
    ∧ ¬ (20 < c6CexCf.total_len) := by
  decide

end Psync
